import Mathlib

/-!
Verification of the Shadowsocks local client (ss-local) repository.

The development shallowly embeds the AEAD framing layer
(src/crypto/aead.js: AEADEncryptor and AEADDecryptor), the key schedule
(src/crypto/methods.js: EVP_BytesToKey and deriveKey) and the SOCKS5
negotiation of src/local.js (handleSocksHandshake, handleSocksRequest,
and the decryptor error handler of connectToServer).

Buffers are modelled as List Nat of byte values.  The node AEAD ciphers
(crypto.createCipheriv) are external primitives and are modelled by an
abstract structure of seal and open functions; theorems that need
cipher behaviour take the standard AEAD facts as hypotheses.  MD5 and
HKDF-SHA1 are likewise abstract function parameters.  Randomness
(crypto.randomBytes for the salt) is an oracle input fixed at
construction.  JavaScript number semantics that matter are modelled
faithfully: the bitwise shift and mask in updateNonce act on 32-bit
two's-complement integers, and Buffer.writeUInt16BE rejects values
above 0xFFFF.
-/

namespace SSLocal

/-! ## JavaScript 32-bit integer semantics, as used by updateNonce -/

/-- ToInt32 coercion applied by JavaScript bitwise operators: reduce the
number modulo two to the 32 into the signed range. -/
def toInt32 (x : Int) : Int := (x + 2 ^ 31) % 2 ^ 32 - 2 ^ 31

/-- JavaScript expression n and 0xff: the low byte of the 32-bit
two's-complement representation of n, as an unsigned value. -/
def jsAnd255 (n : Int) : Int := toInt32 n % 256

/-- JavaScript expression n asr 8: arithmetic shift right by eight bits of
the 32-bit coercion, which is floor division by 256. -/
def jsShr8 (n : Int) : Int := Int.fdiv (toInt32 n) 256

/-- The first k bytes written by the updateNonce loop of aead.js: byte i is
n and 0xff, after which n is shifted right by eight bits. -/
def nonceLow : Nat → Int → List Nat
  | 0, _ => []
  | k + 1, n => (jsAnd255 n).toNat :: nonceLow k (jsShr8 n)

/-- The 12 nonce bytes held by an AEADEncryptor or AEADDecryptor whose
chunkId field equals the argument: the loop writes eight bytes of the
counter via the 32-bit operators and zeroes bytes 8 to 11.  The fresh
nonce Buffer.alloc(12, 0) coincides with the value at counter 0. -/
def nonceBytes (chunkId : Nat) : List Nat :=
  nonceLow 8 (chunkId : Int) ++ [0, 0, 0, 0]

/-- Modelled from the spec: the 12-byte little-endian encoding of the
counter, which the spec and the source comments claim the nonce to be. -/
def leEnc12 (k : Nat) : List Nat :=
  (List.range 12).map (fun i => k / 256 ^ i % 256)

/-- Big-endian 16-bit read, Buffer.readUInt16BE(0). -/
def readUInt16BE (b : List Nat) : Nat := b.getD 0 0 * 256 + b.getD 1 0

/-- Big-endian 16-bit write, Buffer.writeUInt16BE, for values at most
0xFFFF (larger values make the node call throw a RangeError; the
encryptor embedding returns an error in that case before using this). -/
def writeUInt16BE (n : Nat) : List Nat := [n / 256, n % 256]

/-! ## Cipher suites and the abstract AEAD primitive -/

/-- One entry of the AEAD_METHODS table of methods.js. -/
structure MethodInfo where
  keySize : Nat
  saltSize : Nat
  nonceSize : Nat
  tagSize : Nat
deriving DecidableEq, Repr

/-- AEAD_METHODS entry aes-128-gcm. -/
def aes128gcm : MethodInfo := ⟨16, 16, 12, 16⟩

/-- AEAD_METHODS entry aes-256-gcm. -/
def aes256gcm : MethodInfo := ⟨32, 32, 12, 16⟩

/-- AEAD_METHODS entry chacha20-ietf-poly1305. -/
def chacha20ietfpoly1305 : MethodInfo := ⟨32, 32, 12, 16⟩

/-- The method is one of the three entries of AEAD_METHODS. -/
def SupportedMethod (mi : MethodInfo) : Prop :=
  mi = aes128gcm ∨ mi = aes256gcm ∨ mi = chacha20ietfpoly1305

/-- Abstract AEAD primitive standing for node crypto.createCipheriv and
createDecipheriv with an authentication tag.  enc key nonce plaintext
returns the ciphertext and the tag; opn key nonce ciphertext tag returns
the plaintext, or none when tag verification fails. -/
structure AEADScheme where
  enc : List Nat → List Nat → List Nat → List Nat × List Nat
  opn : List Nat → List Nat → List Nat → List Nat → Option (List Nat)

/-- The facts about a real AEAD cipher that the proofs use: opening a
enciphered message succeeds and returns the plaintext, the ciphertext has the
plaintext's length, and the tag has the suite's tag length. -/
def AEADok (A : AEADScheme) (mi : MethodInfo) : Prop :=
  (∀ k n p, A.opn k n (A.enc k n p).1 (A.enc k n p).2 = some p) ∧
  (∀ k n p, (A.enc k n p).1.length = p.length) ∧
  (∀ k n p, (A.enc k n p).2.length = mi.tagSize)

/-! ## Encryptor (class AEADEncryptor of aead.js) -/

/-- Mutable fields of an AEADEncryptor.  The salt field holds the bytes
that crypto.randomBytes will deliver; the key is derived from it on the
first chunk.  The nonce buffer is kept explicitly, mirroring this.nonce. -/
structure EncState where
  password : List Nat
  salt : List Nat
  key : List Nat
  nonce : List Nat
  isFirstChunk : Bool
  chunkId : Nat
deriving DecidableEq, Repr

/-- A fresh AEADEncryptor for the given password whose random-salt oracle
will return the given bytes. -/
def initEnc (mi : MethodInfo) (password salt : List Nat) : EncState :=
  { password := password, salt := salt, key := [],
    nonce := List.replicate mi.nonceSize 0, isFirstChunk := true, chunkId := 0 }

/-- AEADEncryptor._transform on one input buffer.  The derive parameter
stands for deriveKey of methods.js.  Returns the new state, the bytes
pushed, and an error when Buffer.writeUInt16BE rejects the chunk length
(the salt, pushed before the throw, is still reported as output). -/
def encTransform (A : AEADScheme) (mi : MethodInfo)
    (derive : List Nat → List Nat → Nat → List Nat)
    (st : EncState) (chunk : List Nat) :
    EncState × List Nat × Option String :=
  let st0 := if st.isFirstChunk then
      { st with key := derive st.password st.salt mi.keySize,
                nonce := List.replicate mi.nonceSize 0,
                chunkId := 0, isFirstChunk := false }
    else st
  let pre : List Nat := if st.isFirstChunk then st.salt else []
  if chunk.length = 0 then (st0, pre, none)
  else if 0xFFFF < chunk.length then (st0, pre, some "RangeError")
  else
    let sealedL := A.enc st0.key st0.nonce (writeUInt16BE chunk.length)
    let st1 := { st0 with chunkId := st0.chunkId + 1,
                          nonce := nonceBytes (st0.chunkId + 1) }
    let sealedP := A.enc st1.key st1.nonce chunk
    let st2 := { st1 with chunkId := st1.chunkId + 1,
                          nonce := nonceBytes (st1.chunkId + 1) }
    (st2, pre ++ (sealedL.1 ++ (sealedL.2 ++ (sealedP.1 ++ sealedP.2))), none)

/-- Writing a sequence of buffers to the encryptor stream, collecting the
pushed bytes; a thrown error destroys the stream, so feeding stops there. -/
def encFeedAll (A : AEADScheme) (mi : MethodInfo)
    (derive : List Nat → List Nat → Nat → List Nat) :
    EncState → List (List Nat) → EncState × List Nat × Option String
  | st, [] => (st, [], none)
  | st, c :: cs =>
    match encTransform A mi derive st c with
    | (st1, o1, none) =>
      let r := encFeedAll A mi derive st1 cs
      (r.1, o1 ++ r.2.1, r.2.2)
    | (st1, o1, some e) => (st1, o1, some e)

/-! ## Decryptor (class AEADDecryptor of aead.js) -/

/-- Mutable fields of an AEADDecryptor: the carry buffer for incomplete
data, the current state of the length-payload alternation, and the nonce
and chunk counter.  The nonce buffer is kept explicitly, mirroring
this.nonce. -/
structure DecState where
  password : List Nat
  key : List Nat
  nonce : List Nat
  isFirstChunk : Bool
  chunkId : Nat
  buffer : List Nat
  expectingLength : Bool
  payloadLength : Nat
deriving DecidableEq, Repr

/-- A fresh AEADDecryptor for the given password. -/
def initDec (mi : MethodInfo) (password : List Nat) : DecState :=
  { password := password, key := [],
    nonce := List.replicate mi.nonceSize 0, isFirstChunk := true,
    chunkId := 0, buffer := [], expectingLength := true, payloadLength := 0 }

/-- Loop iteration bound for the processing loop of
AEADDecryptor._transform.  Every length step consumes at least two buffer
bytes, and a payload step flips expectingLength, so twice the buffer
length plus two bounds the number of iterations. -/
def decMeasure (st : DecState) : Nat :=
  2 * st.buffer.length + (if st.expectingLength then 0 else 1)

/-- State mutation of a successful length step: record the decrypted
payload length, advance the nonce, expect the payload, and drop the
processed length bytes from the carry buffer. -/
def stepLenState (mi : MethodInfo) (st : DecState) (lengthBuf : List Nat) :
    DecState :=
  { st with payloadLength := readUInt16BE lengthBuf,
            chunkId := st.chunkId + 1,
            nonce := nonceBytes (st.chunkId + 1),
            expectingLength := false,
            buffer := st.buffer.drop (2 + mi.tagSize) }

/-- State mutation of a successful payload step: advance the nonce,
expect the next length field, and drop the processed payload bytes from
the carry buffer. -/
def stepPayState (mi : MethodInfo) (st : DecState) : DecState :=
  { st with chunkId := st.chunkId + 1,
            nonce := nonceBytes (st.chunkId + 1),
            expectingLength := true,
            buffer := st.buffer.drop (st.payloadLength + mi.tagSize) }

/-- The processing loop of AEADDecryptor._transform, driven by explicit
fuel (procGo is run with more fuel than decMeasure, which the agreement
lemma below shows is enough, so the fuel never runs out).  Each iteration
either consumes one encrypted length field or one encrypted payload,
stopping when the buffer is exhausted or too short, or when tag
verification fails. -/
def procGo (A : AEADScheme) (mi : MethodInfo) :
    Nat → DecState → DecState × List (List Nat) × Option String
  | 0, st => (st, [], none)
  | fuel + 1, st =>
    if st.buffer.length = 0 then (st, [], none)
    else if st.expectingLength then
      if st.buffer.length < 2 + mi.tagSize then (st, [], none)
      else
        match A.opn st.key st.nonce (st.buffer.take 2)
            ((st.buffer.drop 2).take mi.tagSize) with
        | none => (st, [], some "AEAD authentication failed for length")
        | some lengthBuf => procGo A mi fuel (stepLenState mi st lengthBuf)
    else
      if st.buffer.length < st.payloadLength + mi.tagSize then (st, [], none)
      else
        match A.opn st.key st.nonce (st.buffer.take st.payloadLength)
            ((st.buffer.drop st.payloadLength).take mi.tagSize) with
        | none => (st, [], some "AEAD authentication failed for payload")
        | some payload =>
          let r := procGo A mi fuel (stepPayState mi st)
          (r.1, payload :: r.2.1, r.2.2)

/-- The processing loop with enough fuel to run to completion. -/
def processLoop (A : AEADScheme) (mi : MethodInfo) (st : DecState) :
    DecState × List (List Nat) × Option String :=
  procGo A mi (decMeasure st + 1) st

/-- AEADDecryptor._transform on one input buffer: append it to the carry
buffer, consume the salt first if it has not yet arrived in full, then
run the processing loop. -/
def decTransform (A : AEADScheme) (mi : MethodInfo)
    (derive : List Nat → List Nat → Nat → List Nat)
    (st : DecState) (chunk : List Nat) :
    DecState × List (List Nat) × Option String :=
  let stb := { st with buffer := st.buffer ++ chunk }
  if stb.isFirstChunk then
    if stb.buffer.length < mi.saltSize then (stb, [], none)
    else
      let salt := stb.buffer.take mi.saltSize
      processLoop A mi
        { stb with buffer := stb.buffer.drop mi.saltSize,
                   key := derive stb.password salt mi.keySize,
                   nonce := List.replicate mi.nonceSize 0,
                   chunkId := 0, isFirstChunk := false }
  else processLoop A mi stb

/-- Writing a sequence of buffers to the decryptor stream, collecting the
pushed plaintext buffers; an emitted error destroys the stream, so
feeding stops there. -/
def decFeedAll (A : AEADScheme) (mi : MethodInfo)
    (derive : List Nat → List Nat → Nat → List Nat) :
    DecState → List (List Nat) → DecState × List (List Nat) × Option String
  | st, [] => (st, [], none)
  | st, c :: cs =>
    match decTransform A mi derive st c with
    | (st1, o1, none) =>
      let r := decFeedAll A mi derive st1 cs
      (r.1, o1 ++ r.2.1, r.2.2)
    | (st1, o1, some e) => (st1, o1, some e)

/-! ## Key schedule (methods.js) -/

/-- Buffer.copy semantics: overwrite dst starting at offset off with the
bytes of src, clipped to the capacity of dst. -/
def listCopy (src dst : List Nat) (off : Nat) : List Nat :=
  dst.take off ++ src.take (dst.length - off) ++
    dst.drop (off + min src.length (dst.length - off))

/-- One round of the EVP_BytesToKey loop: digest the previous round (for
rounds after the first) followed by the password, and copy the digest
into the result buffer at offset 16 times the round index.  The state is
the pair of the result buffer and lastRound. -/
def evpStep (md5 : List Nat → List Nat) (password : List Nat) (i : Nat)
    (st : List Nat × List Nat) : List Nat × List Nat :=
  let d := md5 ((if 0 < i then st.2 else []) ++ password)
  (listCopy d st.1 (i * 16), d)

/-- EVP_BytesToKey of methods.js: ceil(keyLen / 16) MD5 rounds over a
zero-filled buffer, then slice to keyLen bytes.  The md5 parameter stands
for node crypto.createHash applied to md5. -/
def EVP_BytesToKey (md5 : List Nat → List Nat) (password : List Nat)
    (keyLen : Nat) : List Nat :=
  let md5Rounds := (keyLen + 15) / 16
  ((List.range md5Rounds).foldl (fun st i => evpStep md5 password i st)
    (List.replicate (md5Rounds * 16) 0, [])).1.take keyLen

/-- The 9-byte ASCII literal written Buffer.from applied to the string
ss-subkey in deriveKey of methods.js. -/
def ssSubkeyInfo : List Nat := [115, 115, 45, 115, 117, 98, 107, 101, 121]

/-- deriveKey of methods.js: HKDF over SHA1 of the EVP_BytesToKey master
key, keyed by the salt with the ss-subkey info.  The hkdfSha1 parameter
stands for node crypto.hkdfSync applied to sha1, taking input keying
material, salt, info and output length. -/
def deriveKey (hkdfSha1 : List Nat → List Nat → List Nat → Nat → List Nat)
    (md5 : List Nat → List Nat) (password salt : List Nat) (keySize : Nat) :
    List Nat :=
  hkdfSha1 (EVP_BytesToKey md5 password keySize) salt ssSubkeyInfo keySize

/-- Modelled from the spec: digest number i of the password stretch, with
d 0 the digest of the password and d (i + 1) the digest of d i followed
by the password. -/
def specEvpDigest (md5 : List Nat → List Nat) (password : List Nat) :
    Nat → List Nat
  | 0 => md5 password
  | i + 1 => md5 (specEvpDigest md5 password i ++ password)

/-- Modelled from the spec: the concatenation of the stretch digests,
truncated to keyLen bytes, with enough rounds to fill keyLen bytes. -/
def specEVP (md5 : List Nat → List Nat) (password : List Nat)
    (keyLen : Nat) : List Nat :=
  (((List.range ((keyLen + 15) / 16)).map
    (specEvpDigest md5 password)).flatten).take keyLen

/-- Modelled from the spec: HKDF with hash SHA1, input keying material the
password stretch, the given salt, info the 9-byte ASCII string ss-subkey,
and output length the key size. -/
def specDeriveKey
    (hkdfSha1 : List Nat → List Nat → List Nat → Nat → List Nat)
    (md5 : List Nat → List Nat) (password salt : List Nat)
    (keySize : Nat) : List Nat :=
  hkdfSha1 (specEVP md5 password keySize) salt ssSubkeyInfo keySize

/-! ## SOCKS5 negotiation (local.js) -/

/-- Outcome of one run of the greeting handler over the accumulated
buffer: wait for more bytes, destroy the connection, or write a reply and
move on to request handling. -/
inductive HsAction where
  | needMore
  | destroy
  | reply (resp : List Nat)
deriving DecidableEq, Repr

/-- ShadowsocksLocal.handleSocksHandshake as a function of the
accumulated greeting bytes: wait until two bytes plus the advertised
method count have arrived, destroy on a bad version byte, and then reply
five zero. -/
def handleSocksHandshake (buf : List Nat) : HsAction :=
  if buf.length < 2 then .needMore
  else if buf.getD 0 0 ≠ 5 then .destroy
  else if buf.length < 2 + buf.getD 1 0 then .needMore
  else .reply [5, 0]

/-- The authentication methods offered by a complete greeting buffer. -/
def offeredMethods (buf : List Nat) : List Nat :=
  (buf.drop 2).take (buf.getD 1 0)

/-- Outcome of one run of the request handler over the accumulated
buffer: wait, destroy, write a failure reply and close, or connect to the
remote with the given target address record. -/
inductive ReqAction where
  | needMore
  | destroy
  | replyClose (resp : List Nat)
  | connect (target : List Nat)
deriving DecidableEq, Repr

/-- Final step of ShadowsocksLocal.handleSocksRequest once the address
length is known: wait for the full request, then connect with the wire
slice from the address type byte through the port. -/
def finishRequest (buf : List Nat) (addrLength : Nat) : ReqAction :=
  if buf.length < 4 + addrLength + 2 then .needMore
  else .connect ((buf.drop 3).take (addrLength + 3))

/-- ShadowsocksLocal.handleSocksRequest as a function of the accumulated
request bytes: verify version and reserved byte, reply command not
supported for anything but CONNECT, resolve the address length from the
address type (IPv4 four bytes, domain one length byte plus the domain,
IPv6 sixteen bytes, otherwise reply address type not supported), and
connect with the target address record. -/
def handleSocksRequest (buf : List Nat) : ReqAction :=
  if buf.length < 4 then .needMore
  else if ¬(buf.getD 0 0 = 5 ∧ buf.getD 2 0 = 0) then .destroy
  else if buf.getD 1 0 ≠ 1 then .replyClose [5, 7, 0, 1, 0, 0, 0, 0, 0, 0]
  else
    match buf.getD 3 0 with
    | 1 => finishRequest buf 4
    | 3 =>
      if buf.length < 5 then .needMore
      else finishRequest buf (buf.getD 4 0 + 1)
    | 4 => finishRequest buf 16
    | _ => .replyClose [5, 8, 0, 1, 0, 0, 0, 0, 0, 0]

/-- The two sockets of one tunnel, as seen by the error handlers of
ShadowsocksLocal.connectToServer. -/
structure TunnelState where
  clientDestroyed : Bool
  serverDestroyed : Bool
deriving DecidableEq, Repr

/-- The decryptor error handler installed by connectToServer: destroy the
client connection and the server connection. -/
def onDecryptorError (_t : TunnelState) : TunnelState :=
  { clientDestroyed := true, serverDestroyed := true }

/-! ## Wire frames -/

/-- One length-plus-payload frame as the encryptor lays it out, with an
explicit two-byte length field plaintext lb: the enciphered length field,
its tag, the enciphered payload, and its tag, under consecutive nonces
starting at cid. -/
def mkFrameL (A : AEADScheme) (key : List Nat) (cid : Nat)
    (lb p : List Nat) : List Nat :=
  (A.enc key (nonceBytes cid) lb).1 ++
    ((A.enc key (nonceBytes cid) lb).2 ++
      ((A.enc key (nonceBytes (cid + 1)) p).1 ++
        (A.enc key (nonceBytes (cid + 1)) p).2))

/-- A run of frames from explicit length fields and payloads, two nonces
per frame. -/
def mkFramesL (A : AEADScheme) (key : List Nat) :
    Nat → List (List Nat × List Nat) → List Nat
  | _, [] => []
  | cid, (lb, p) :: ps => mkFrameL A key cid lb p ++ mkFramesL A key (cid + 2) ps

/-- The frames an error-free encryptor session emits for the given
payloads: each length field is the big-endian encoding of the payload
length. -/
def mkFrames (A : AEADScheme) (key : List Nat) (cid : Nat)
    (ps : List (List Nat)) : List Nat :=
  mkFramesL A key cid (ps.map (fun p => (writeUInt16BE p.length, p)))

/-- The length fields and payloads are coherent: each length field is two
bytes and reads back as the payload length. -/
def PairsOK (pairs : List (List Nat × List Nat)) : Prop :=
  ∀ q ∈ pairs, q.1.length = 2 ∧ readUInt16BE q.1 = q.2.length

/-! ## A concrete cipher for witnesses and counterexamples -/

/-- A degenerate but AEADok cipher used to evaluate the machines on
concrete inputs: the ciphertext is the plaintext and the tag is sixteen
zero bytes, verified on open. -/
def toyAEAD : AEADScheme :=
  { enc := fun _ _ p => (p, List.replicate 16 0),
    opn := fun _ _ c t => if t = List.replicate 16 0 then some c else none }

/-- A concrete stand-in for deriveKey in witnesses. -/
def toyDerive (password salt : List Nat) (keySize : Nat) : List Nat :=
  (password ++ salt ++ List.replicate keySize 7).take keySize

/-- The toy cipher satisfies the AEAD facts for any of the three suites. -/
theorem toyAEADok (mi : MethodInfo) (h : mi.tagSize = 16) :
    AEADok toyAEAD mi := by
  refine ⟨fun k n p => ?_, fun k n p => rfl, fun k n p => ?_⟩
  · simp [toyAEAD]
  · simp [toyAEAD, h]

/-! ## Loop lemmas -/

/-- A successful length step shrinks the loop measure. -/
theorem decMeasure_stepLen (mi : MethodInfo) (st : DecState)
    (lb : List Nat) (hE : st.expectingLength = true)
    (h : ¬ st.buffer.length < 2 + mi.tagSize) :
    decMeasure (stepLenState mi st lb) < decMeasure st := by
  simp only [decMeasure, stepLenState, List.length_drop, hE]
  simp only [if_true, if_false, Bool.false_eq_true, reduceIte]
  omega

/-- A successful payload step shrinks the loop measure. -/
theorem decMeasure_stepPay (mi : MethodInfo) (st : DecState)
    (hE : st.expectingLength = false) :
    decMeasure (stepPayState mi st) < decMeasure st := by
  simp only [decMeasure, stepPayState, List.length_drop, hE]
  simp only [if_true, if_false, Bool.false_eq_true, reduceIte]
  omega

/-- The loop result does not depend on the fuel, as long as the fuel
exceeds the measure. -/
theorem procGo_agree (A : AEADScheme) (mi : MethodInfo) :
    ∀ f g st, decMeasure st < f → decMeasure st < g →
      procGo A mi f st = procGo A mi g st := by
  intro f
  induction f with
  | zero => intro g st hf _; omega
  | succ f ih =>
    intro g st hf hg
    obtain ⟨g', rfl⟩ : ∃ g', g = g' + 1 := ⟨g - 1, by omega⟩
    by_cases h0 : st.buffer.length = 0
    · simp [procGo, h0]
    · by_cases hE : st.expectingLength
      · by_cases hshort : st.buffer.length < 2 + mi.tagSize
        · simp [procGo, h0, hE, hshort]
        · rcases hop : A.opn st.key st.nonce (st.buffer.take 2)
              ((st.buffer.drop 2).take mi.tagSize) with _ | lengthBuf
          · simp [procGo, h0, hE, hshort, hop]
          · have hm := decMeasure_stepLen mi st lengthBuf hE hshort
            simp only [procGo, h0, hE, hshort, hop, if_false, if_true,
              reduceIte]
            exact ih g' (stepLenState mi st lengthBuf) (by omega) (by omega)
      · have hE' : st.expectingLength = false := by
          simpa using hE
        by_cases hshort : st.buffer.length < st.payloadLength + mi.tagSize
        · simp [procGo, h0, hE', hshort]
        · rcases hop : A.opn st.key st.nonce (st.buffer.take st.payloadLength)
              ((st.buffer.drop st.payloadLength).take mi.tagSize) with _ | payload
          · simp [procGo, h0, hE', hshort, hop]
          · have hm := decMeasure_stepPay mi st hE'
            simp only [procGo, h0, hE', hshort, hop, if_false, if_true,
              Bool.false_eq_true, reduceIte]
            rw [ih g' (stepPayState mi st) (by omega) (by omega)]

/-- One-step unfolding of the processing loop. -/
theorem processLoop_eq (A : AEADScheme) (mi : MethodInfo) (st : DecState) :
    processLoop A mi st =
      if st.buffer.length = 0 then (st, [], none)
      else if st.expectingLength then
        if st.buffer.length < 2 + mi.tagSize then (st, [], none)
        else
          match A.opn st.key st.nonce (st.buffer.take 2)
              ((st.buffer.drop 2).take mi.tagSize) with
          | none => (st, [], some "AEAD authentication failed for length")
          | some lengthBuf => processLoop A mi (stepLenState mi st lengthBuf)
      else
        if st.buffer.length < st.payloadLength + mi.tagSize then (st, [], none)
        else
          match A.opn st.key st.nonce (st.buffer.take st.payloadLength)
              ((st.buffer.drop st.payloadLength).take mi.tagSize) with
          | none => (st, [], some "AEAD authentication failed for payload")
          | some payload =>
            let r := processLoop A mi (stepPayState mi st)
            (r.1, payload :: r.2.1, r.2.2) := by
  conv_lhs => rw [processLoop]
  by_cases h0 : st.buffer.length = 0
  · simp [procGo, h0]
  · by_cases hE : st.expectingLength
    · by_cases hshort : st.buffer.length < 2 + mi.tagSize
      · simp [procGo, h0, hE, hshort]
      · rcases hop : A.opn st.key st.nonce (st.buffer.take 2)
            ((st.buffer.drop 2).take mi.tagSize) with _ | lengthBuf
        · simp [procGo, h0, hE, hshort, hop]
        · have hm := decMeasure_stepLen mi st lengthBuf hE hshort
          simp only [procGo, h0, hE, hshort, hop, if_false,
            if_true, reduceIte]
          simp only [processLoop]
          exact procGo_agree A mi _ _ _ (by omega) (by omega)
    · have hE' : st.expectingLength = false := by simpa using hE
      by_cases hshort : st.buffer.length < st.payloadLength + mi.tagSize
      · simp [procGo, h0, hE', hshort]
      · rcases hop : A.opn st.key st.nonce (st.buffer.take st.payloadLength)
            ((st.buffer.drop st.payloadLength).take mi.tagSize) with _ | payload
        · simp [procGo, h0, hE', hshort, hop]
        · have hm := decMeasure_stepPay mi st hE'
          simp only [procGo, h0, hE', hshort, hop, if_false,
            if_true, Bool.false_eq_true, reduceIte]
          simp only [processLoop]
          rw [procGo_agree A mi (decMeasure st)
            (decMeasure (stepPayState mi st) + 1) (stepPayState mi st)
            (by omega) (by omega)]

/-- The processing loop never touches the isFirstChunk, password and key
fields. -/
theorem processLoop_fields (A : AEADScheme) (mi : MethodInfo) :
    ∀ (n : Nat) (st : DecState), decMeasure st ≤ n →
      (processLoop A mi st).1.isFirstChunk = st.isFirstChunk ∧
      (processLoop A mi st).1.password = st.password ∧
      (processLoop A mi st).1.key = st.key := by
  intro n
  induction n with
  | zero =>
    intro st h
    have hb : st.buffer.length = 0 := by
      simp only [decMeasure] at h; omega
    rw [processLoop_eq]; simp [hb]
  | succ n ih =>
    intro st h
    rw [processLoop_eq]
    by_cases h0 : st.buffer.length = 0
    · simp [h0]
    · by_cases hE : st.expectingLength
      · by_cases hshort : st.buffer.length < 2 + mi.tagSize
        · simp [h0, hE, hshort]
        · rcases hop : A.opn st.key st.nonce (st.buffer.take 2)
              ((st.buffer.drop 2).take mi.tagSize) with _ | lengthBuf
          · simp [h0, hE, hshort, hop]
          · have hm := decMeasure_stepLen mi st lengthBuf hE hshort
            have := ih (stepLenState mi st lengthBuf) (by omega)
            simp only [h0, hE, hshort, hop, if_false, if_true, reduceIte]
            simpa [stepLenState] using this
      · have hE' : st.expectingLength = false := by simpa using hE
        by_cases hshort : st.buffer.length < st.payloadLength + mi.tagSize
        · simp [h0, hE', hshort]
        · rcases hop : A.opn st.key st.nonce (st.buffer.take st.payloadLength)
              ((st.buffer.drop st.payloadLength).take mi.tagSize) with _ | payload
          · simp [h0, hE', hshort, hop]
          · have hm := decMeasure_stepPay mi st hE'
            have := ih (stepPayState mi st) (by omega)
            simp only [h0, hE', hshort, hop, if_false, if_true,
              Bool.false_eq_true, reduceIte]
            simpa [stepPayState] using this

/-- A state in which the processing loop stopped without error is
quiescent: running the loop on it again consumes nothing and emits
nothing. -/
theorem processLoop_quiescent (A : AEADScheme) (mi : MethodInfo) :
    ∀ (n : Nat) (st st1 : DecState) (o1 : List (List Nat)),
      decMeasure st ≤ n → processLoop A mi st = (st1, o1, none) →
      processLoop A mi st1 = (st1, [], none) := by
  intro n
  induction n with
  | zero =>
    intro st st1 o1 h hrun
    have hb : st.buffer.length = 0 := by
      simp only [decMeasure] at h; omega
    rw [processLoop_eq] at hrun
    simp only [hb, if_pos, reduceIte, Prod.mk.injEq] at hrun
    obtain ⟨rfl, -, -⟩ := hrun
    rw [processLoop_eq]; simp [hb]
  | succ n ih =>
    intro st st1 o1 h hrun
    rw [processLoop_eq] at hrun
    by_cases h0 : st.buffer.length = 0
    · simp only [h0, if_pos, reduceIte, Prod.mk.injEq] at hrun
      obtain ⟨rfl, -, -⟩ := hrun
      rw [processLoop_eq]; simp [h0]
    · by_cases hE : st.expectingLength
      · by_cases hshort : st.buffer.length < 2 + mi.tagSize
        · simp only [h0, hE, hshort, if_false, if_true, reduceIte,
            Prod.mk.injEq] at hrun
          obtain ⟨rfl, -, -⟩ := hrun
          rw [processLoop_eq]; simp [h0, hE, hshort]
        · rcases hop : A.opn st.key st.nonce (st.buffer.take 2)
              ((st.buffer.drop 2).take mi.tagSize) with _ | lengthBuf
          · simp [h0, hE, hshort, hop] at hrun
          · have hm := decMeasure_stepLen mi st lengthBuf hE hshort
            simp only [h0, hE, hshort, hop, if_false, if_true,
              reduceIte] at hrun
            exact ih (stepLenState mi st lengthBuf) st1 o1 (by omega) hrun
      · have hE' : st.expectingLength = false := by simpa using hE
        by_cases hshort : st.buffer.length < st.payloadLength + mi.tagSize
        · simp only [h0, hE', hshort, if_false, if_true,
            Bool.false_eq_true, reduceIte, Prod.mk.injEq] at hrun
          obtain ⟨rfl, -, -⟩ := hrun
          rw [processLoop_eq]; simp [h0, hE', hshort]
        · rcases hop : A.opn st.key st.nonce (st.buffer.take st.payloadLength)
              ((st.buffer.drop st.payloadLength).take mi.tagSize) with _ | payload
          · simp [h0, hE', hshort, hop] at hrun
          · have hm := decMeasure_stepPay mi st hE'
            rcases hr : processLoop A mi (stepPayState mi st) with ⟨s2, o2, e2⟩
            simp only [h0, hE', hshort, hop, if_false, if_true,
              Bool.false_eq_true, reduceIte, hr, Prod.mk.injEq] at hrun
            obtain ⟨rfl, -, he2⟩ := hrun
            subst he2
            exact ih (stepPayState mi st) s2 o2 (by omega) hr

/-- Appending bytes to a state on which the loop stops without error:
the loop over the longer buffer produces the stopped run's output
followed by whatever the loop produces from the stopped state with the
new bytes appended. -/
theorem processLoop_append_ok (A : AEADScheme) (mi : MethodInfo) :
    ∀ (n : Nat) (st : DecState) (b : List Nat) (st1 : DecState)
      (o1 : List (List Nat)),
      decMeasure st ≤ n → processLoop A mi st = (st1, o1, none) →
      processLoop A mi { st with buffer := st.buffer ++ b } =
        ((processLoop A mi { st1 with buffer := st1.buffer ++ b }).1,
         o1 ++ (processLoop A mi { st1 with buffer := st1.buffer ++ b }).2.1,
         (processLoop A mi { st1 with buffer := st1.buffer ++ b }).2.2) := by
  intro n
  induction n with
  | zero =>
    intro st b st1 o1 h hrun
    have hb : st.buffer.length = 0 := by
      simp only [decMeasure] at h; omega
    rw [processLoop_eq] at hrun
    simp only [hb, if_pos, reduceIte, Prod.mk.injEq] at hrun
    obtain ⟨rfl, rfl, -⟩ := hrun
    simp
  | succ n ih =>
    intro st b st1 o1 h hrun
    rw [processLoop_eq] at hrun
    by_cases h0 : st.buffer.length = 0
    · simp only [h0, if_pos, reduceIte, Prod.mk.injEq] at hrun
      obtain ⟨rfl, rfl, -⟩ := hrun
      simp
    · by_cases hE : st.expectingLength
      · by_cases hshort : st.buffer.length < 2 + mi.tagSize
        · simp only [h0, hE, hshort, if_false, if_true, reduceIte,
            Prod.mk.injEq] at hrun
          obtain ⟨rfl, rfl, -⟩ := hrun
          simp
        · have h2 : 2 ≤ st.buffer.length := by omega
          have h2t : 2 + mi.tagSize ≤ st.buffer.length := by omega
          have htag : mi.tagSize ≤ (st.buffer.drop 2).length := by
            simp [List.length_drop]; omega
          rcases hop : A.opn st.key st.nonce (st.buffer.take 2)
              ((st.buffer.drop 2).take mi.tagSize) with _ | lengthBuf
          · simp [h0, hE, hshort, hop] at hrun
          · have hm := decMeasure_stepLen mi st lengthBuf hE hshort
            simp only [h0, hE, hshort, hop, if_false, if_true,
              reduceIte] at hrun
            have hstep : stepLenState mi { st with buffer := st.buffer ++ b }
                lengthBuf =
                { stepLenState mi st lengthBuf with
                    buffer := (stepLenState mi st lengthBuf).buffer ++ b } := by
              simp [stepLenState, List.drop_append_of_le_length h2t]
            have hc0 : ¬ (st.buffer.length + b.length = 0) := by omega
            have hcs : ¬ (st.buffer.length + b.length < 2 + mi.tagSize) := by
              omega
            rw [processLoop_eq]
            simp only [List.length_append, List.take_append_of_le_length h2,
              List.drop_append_of_le_length h2,
              List.take_append_of_le_length htag, hop]
            rw [if_neg hc0, if_pos hE, if_neg hcs, hstep]
            exact ih (stepLenState mi st lengthBuf) b st1 o1 (by omega) hrun
      · have hE' : st.expectingLength = false := by simpa using hE
        by_cases hshort : st.buffer.length < st.payloadLength + mi.tagSize
        · simp only [h0, hE', hshort, if_false, if_true,
            Bool.false_eq_true, reduceIte, Prod.mk.injEq] at hrun
          obtain ⟨rfl, rfl, -⟩ := hrun
          simp
        · have hL : st.payloadLength ≤ st.buffer.length := by omega
          have hLt : st.payloadLength + mi.tagSize ≤ st.buffer.length := by
            omega
          have htag : mi.tagSize ≤ (st.buffer.drop st.payloadLength).length := by
            simp [List.length_drop]; omega
          rcases hop : A.opn st.key st.nonce (st.buffer.take st.payloadLength)
              ((st.buffer.drop st.payloadLength).take mi.tagSize) with _ | payload
          · simp [h0, hE', hshort, hop] at hrun
          · have hm := decMeasure_stepPay mi st hE'
            rcases hr : processLoop A mi (stepPayState mi st) with ⟨s2, o2, e2⟩
            simp only [h0, hE', hshort, hop, if_false, if_true,
              Bool.false_eq_true, reduceIte, hr, Prod.mk.injEq] at hrun
            obtain ⟨rfl, rfl, he2⟩ := hrun
            subst he2
            have hstep : stepPayState mi { st with buffer := st.buffer ++ b } =
                { stepPayState mi st with
                    buffer := (stepPayState mi st).buffer ++ b } := by
              simp [stepPayState, List.drop_append_of_le_length hLt]
            have hc0 : ¬ (st.buffer.length + b.length = 0) := by omega
            have hcE : ¬ (st.expectingLength = true) := by simp [hE']
            have hcs :
                ¬ (st.buffer.length + b.length <
                    st.payloadLength + mi.tagSize) := by omega
            rw [processLoop_eq]
            simp only [List.length_append, List.take_append_of_le_length hL,
              List.drop_append_of_le_length hL,
              List.take_append_of_le_length htag, hop]
            rw [if_neg hc0, if_neg hcE, if_neg hcs, hstep]
            rw [ih (stepPayState mi st) b s2 o2 (by omega) (by rw [hr])]
            simp

/-- Appending bytes to a state on which the loop stops with an error:
the error, the output, and the stopping state are unchanged except that
the appended bytes sit unconsumed behind the carry buffer. -/
theorem processLoop_append_err (A : AEADScheme) (mi : MethodInfo) :
    ∀ (n : Nat) (st : DecState) (b : List Nat) (st1 : DecState)
      (o1 : List (List Nat)) (e : String),
      decMeasure st ≤ n → processLoop A mi st = (st1, o1, some e) →
      processLoop A mi { st with buffer := st.buffer ++ b } =
        ({ st1 with buffer := st1.buffer ++ b }, o1, some e) := by
  intro n
  induction n with
  | zero =>
    intro st b st1 o1 e h hrun
    have hb : st.buffer.length = 0 := by
      simp only [decMeasure] at h; omega
    rw [processLoop_eq] at hrun
    simp [hb] at hrun
  | succ n ih =>
    intro st b st1 o1 e h hrun
    rw [processLoop_eq] at hrun
    by_cases h0 : st.buffer.length = 0
    · simp [h0] at hrun
    · by_cases hE : st.expectingLength
      · by_cases hshort : st.buffer.length < 2 + mi.tagSize
        · simp [h0, hE, hshort] at hrun
        · have h2 : 2 ≤ st.buffer.length := by omega
          have h2t : 2 + mi.tagSize ≤ st.buffer.length := by omega
          have htag : mi.tagSize ≤ (st.buffer.drop 2).length := by
            simp [List.length_drop]; omega
          rcases hop : A.opn st.key st.nonce (st.buffer.take 2)
              ((st.buffer.drop 2).take mi.tagSize) with _ | lengthBuf
          · simp only [h0, hE, hshort, hop, if_false, if_true, reduceIte,
              Prod.mk.injEq] at hrun
            obtain ⟨rfl, rfl, he⟩ := hrun
            have hc0 : ¬ (st.buffer.length + b.length = 0) := by omega
            have hcs : ¬ (st.buffer.length + b.length < 2 + mi.tagSize) := by
              omega
            rw [processLoop_eq]
            simp only [List.length_append, List.take_append_of_le_length h2,
              List.drop_append_of_le_length h2,
              List.take_append_of_le_length htag, hop]
            rw [if_neg hc0, if_pos hE, if_neg hcs]
            simp [he]
          · have hm := decMeasure_stepLen mi st lengthBuf hE hshort
            simp only [h0, hE, hshort, hop, if_false, if_true,
              reduceIte] at hrun
            have hstep : stepLenState mi { st with buffer := st.buffer ++ b }
                lengthBuf =
                { stepLenState mi st lengthBuf with
                    buffer := (stepLenState mi st lengthBuf).buffer ++ b } := by
              simp [stepLenState, List.drop_append_of_le_length h2t]
            have hc0 : ¬ (st.buffer.length + b.length = 0) := by omega
            have hcs : ¬ (st.buffer.length + b.length < 2 + mi.tagSize) := by
              omega
            rw [processLoop_eq]
            simp only [List.length_append, List.take_append_of_le_length h2,
              List.drop_append_of_le_length h2,
              List.take_append_of_le_length htag, hop]
            rw [if_neg hc0, if_pos hE, if_neg hcs, hstep]
            exact ih (stepLenState mi st lengthBuf) b st1 o1 e (by omega) hrun
      · have hE' : st.expectingLength = false := by simpa using hE
        by_cases hshort : st.buffer.length < st.payloadLength + mi.tagSize
        · simp [h0, hE', hshort] at hrun
        · have hL : st.payloadLength ≤ st.buffer.length := by omega
          have hLt : st.payloadLength + mi.tagSize ≤ st.buffer.length := by
            omega
          have htag : mi.tagSize ≤ (st.buffer.drop st.payloadLength).length := by
            simp [List.length_drop]; omega
          rcases hop : A.opn st.key st.nonce (st.buffer.take st.payloadLength)
              ((st.buffer.drop st.payloadLength).take mi.tagSize) with _ | payload
          · simp only [h0, hE', hshort, hop, if_false, if_true,
              Bool.false_eq_true, reduceIte, Prod.mk.injEq] at hrun
            obtain ⟨rfl, rfl, he⟩ := hrun
            have hc0 : ¬ (st.buffer.length + b.length = 0) := by omega
            have hcE : ¬ (st.expectingLength = true) := by simp [hE']
            have hcs :
                ¬ (st.buffer.length + b.length <
                    st.payloadLength + mi.tagSize) := by omega
            rw [processLoop_eq]
            simp only [List.length_append, List.take_append_of_le_length hL,
              List.drop_append_of_le_length hL,
              List.take_append_of_le_length htag, hop]
            rw [if_neg hc0, if_neg hcE, if_neg hcs]
            simp [he]
          · have hm := decMeasure_stepPay mi st hE'
            rcases hr : processLoop A mi (stepPayState mi st) with ⟨s2, o2, e2⟩
            simp only [h0, hE', hshort, hop, if_false, if_true,
              Bool.false_eq_true, reduceIte, hr, Prod.mk.injEq] at hrun
            obtain ⟨rfl, rfl, he2⟩ := hrun
            subst he2
            have hstep : stepPayState mi { st with buffer := st.buffer ++ b } =
                { stepPayState mi st with
                    buffer := (stepPayState mi st).buffer ++ b } := by
              simp [stepPayState, List.drop_append_of_le_length hLt]
            have hc0 : ¬ (st.buffer.length + b.length = 0) := by omega
            have hcE : ¬ (st.expectingLength = true) := by simp [hE']
            have hcs :
                ¬ (st.buffer.length + b.length <
                    st.payloadLength + mi.tagSize) := by omega
            rw [processLoop_eq]
            simp only [List.length_append, List.take_append_of_le_length hL,
              List.drop_append_of_le_length hL,
              List.take_append_of_le_length htag, hop]
            rw [if_neg hc0, if_neg hcE, if_neg hcs, hstep]
            rw [ih (stepPayState mi st) b s2 o2 e (by omega) (by rw [hr])]

/-- Shape of a decryptor write once the salt has been consumed: append
the chunk to the carry buffer and run the loop. -/
theorem decTransform_notFirst (A : AEADScheme) (mi : MethodInfo)
    (derive : List Nat → List Nat → Nat → List Nat)
    (st : DecState) (chunk : List Nat) (hnf : st.isFirstChunk = false) :
    decTransform A mi derive st chunk =
      processLoop A mi { st with buffer := st.buffer ++ chunk } := by
  simp [decTransform, hnf]

/-- Shape of a decryptor write while the salt is still incomplete: the
bytes are buffered and nothing else happens. -/
theorem decTransform_first_wait (A : AEADScheme) (mi : MethodInfo)
    (derive : List Nat → List Nat → Nat → List Nat)
    (st : DecState) (chunk : List Nat) (hF : st.isFirstChunk = true)
    (hlt : (st.buffer ++ chunk).length < mi.saltSize) :
    decTransform A mi derive st chunk =
      ({ st with buffer := st.buffer ++ chunk }, [], none) := by
  simp only [decTransform]
  rw [if_pos hF, if_pos hlt]

/-- Shape of the first decryptor write that completes the salt: consume
the salt, derive the key, reset the nonce, and run the loop on the rest. -/
theorem decTransform_first_salt (A : AEADScheme) (mi : MethodInfo)
    (derive : List Nat → List Nat → Nat → List Nat)
    (st : DecState) (chunk : List Nat) (hF : st.isFirstChunk = true)
    (hle : mi.saltSize ≤ (st.buffer ++ chunk).length) :
    decTransform A mi derive st chunk =
      processLoop A mi
        { st with buffer := (st.buffer ++ chunk).drop mi.saltSize,
                  key := derive st.password
                    ((st.buffer ++ chunk).take mi.saltSize) mi.keySize,
                  nonce := List.replicate mi.nonceSize 0,
                  chunkId := 0, isFirstChunk := false } := by
  simp only [decTransform]
  rw [if_pos hF, if_neg (by omega)]

/-- Feeding one buffer and then another to the decryptor produces the
same outputs and error as feeding their concatenation, when the first
buffer is processed without error. -/
theorem decTransform_append_ok (A : AEADScheme) (mi : MethodInfo)
    (derive : List Nat → List Nat → Nat → List Nat)
    (st : DecState) (c b : List Nat) (st1 : DecState)
    (o1 : List (List Nat))
    (hrun : decTransform A mi derive st c = (st1, o1, none)) :
    decTransform A mi derive st (c ++ b) =
      ((decTransform A mi derive st1 b).1,
       o1 ++ (decTransform A mi derive st1 b).2.1,
       (decTransform A mi derive st1 b).2.2) := by
  by_cases hF : st.isFirstChunk
  · by_cases hsalt : (st.buffer ++ c).length < mi.saltSize
    · rw [decTransform_first_wait A mi derive st c hF hsalt,
        Prod.mk.injEq, Prod.mk.injEq] at hrun
      obtain ⟨rfl, rfl, -⟩ := hrun
      by_cases hsalt2 : (st.buffer ++ (c ++ b)).length < mi.saltSize
      · rw [decTransform_first_wait A mi derive st (c ++ b) hF hsalt2]
        rw [decTransform_first_wait A mi derive
          { st with buffer := st.buffer ++ c } b hF
          (by simp only [List.length_append] at hsalt2 ⊢; omega)]
        simp [List.append_assoc]
      · have hle : mi.saltSize ≤ (st.buffer ++ (c ++ b)).length := by omega
        rw [decTransform_first_salt A mi derive st (c ++ b) hF hle]
        rw [decTransform_first_salt A mi derive
          { st with buffer := st.buffer ++ c } b hF
          (by simp only [List.length_append] at hle ⊢; omega)]
        simp [← List.append_assoc]
    · have hle : mi.saltSize ≤ (st.buffer ++ c).length := by omega
      rw [decTransform_first_salt A mi derive st c hF hle] at hrun
      have hfields := processLoop_fields A mi
        (decMeasure { st with
          buffer := (st.buffer ++ c).drop mi.saltSize,
          key := derive st.password ((st.buffer ++ c).take mi.saltSize)
            mi.keySize,
          nonce := List.replicate mi.nonceSize 0,
          chunkId := 0, isFirstChunk := false }) _ le_rfl
      rw [hrun] at hfields
      have hnf : st1.isFirstChunk = false := by simpa using hfields.1
      have happ := processLoop_append_ok A mi _ _ b st1 o1 le_rfl hrun
      rw [decTransform_first_salt A mi derive st (c ++ b) hF
        (by simp only [← List.append_assoc, List.length_append] at *; omega),
        decTransform_notFirst A mi derive st1 b hnf]
      rw [← List.append_assoc,
        List.take_append_of_le_length hle,
        List.drop_append_of_le_length hle]
      exact happ
  · have hF' : st.isFirstChunk = false := by simpa using hF
    rw [decTransform_notFirst A mi derive st c hF'] at hrun
    have hfields := processLoop_fields A mi
      (decMeasure { st with buffer := st.buffer ++ c }) _ le_rfl
    rw [hrun] at hfields
    have hnf : st1.isFirstChunk = false := by
      simpa [hF'] using hfields.1
    have happ := processLoop_append_ok A mi _ _ b st1 o1 le_rfl hrun
    rw [decTransform_notFirst A mi derive st (c ++ b) hF',
      decTransform_notFirst A mi derive st1 b hnf,
      ← List.append_assoc]
    exact happ

/-- Feeding one buffer and then another to the decryptor when the first
already fails: the concatenation fails identically, with the extra bytes
left unconsumed behind the carry buffer. -/
theorem decTransform_append_err (A : AEADScheme) (mi : MethodInfo)
    (derive : List Nat → List Nat → Nat → List Nat)
    (st : DecState) (c b : List Nat) (st1 : DecState)
    (o1 : List (List Nat)) (e : String)
    (hrun : decTransform A mi derive st c = (st1, o1, some e)) :
    decTransform A mi derive st (c ++ b) =
      ({ st1 with buffer := st1.buffer ++ b }, o1, some e) := by
  by_cases hF : st.isFirstChunk
  · by_cases hsalt : (st.buffer ++ c).length < mi.saltSize
    · rw [decTransform_first_wait A mi derive st c hF hsalt] at hrun
      simp at hrun
    · have hle : mi.saltSize ≤ (st.buffer ++ c).length := by omega
      rw [decTransform_first_salt A mi derive st c hF hle] at hrun
      have happ := processLoop_append_err A mi _ _ b st1 o1 e le_rfl hrun
      rw [decTransform_first_salt A mi derive st (c ++ b) hF
        (by simp only [← List.append_assoc, List.length_append] at *; omega)]
      rw [← List.append_assoc,
        List.take_append_of_le_length hle,
        List.drop_append_of_le_length hle]
      exact happ
  · have hF' : st.isFirstChunk = false := by simpa using hF
    rw [decTransform_notFirst A mi derive st c hF'] at hrun
    have happ := processLoop_append_err A mi _ _ b st1 o1 e le_rfl hrun
    rw [decTransform_notFirst A mi derive st (c ++ b) hF',
      ← List.append_assoc]
    exact happ

/-- The state left by an error-free decryptor run is quiescent: writing
an empty buffer to it changes nothing and emits nothing. -/
theorem decTransform_quiescent (A : AEADScheme) (mi : MethodInfo)
    (derive : List Nat → List Nat → Nat → List Nat)
    (st : DecState) (c : List Nat) (st1 : DecState) (o1 : List (List Nat))
    (hrun : decTransform A mi derive st c = (st1, o1, none)) :
    decTransform A mi derive st1 [] = (st1, [], none) := by
  by_cases hF : st.isFirstChunk
  · by_cases hsalt : (st.buffer ++ c).length < mi.saltSize
    · rw [decTransform_first_wait A mi derive st c hF hsalt,
        Prod.mk.injEq, Prod.mk.injEq] at hrun
      obtain ⟨rfl, -, -⟩ := hrun
      rw [decTransform_first_wait A mi derive
        { st with buffer := st.buffer ++ c } [] hF
        (by simp only [List.length_append, List.length_nil] at hsalt ⊢
            omega)]
      simp
    · have hle : mi.saltSize ≤ (st.buffer ++ c).length := by omega
      rw [decTransform_first_salt A mi derive st c hF hle] at hrun
      have hfields := processLoop_fields A mi
        (decMeasure { st with
          buffer := (st.buffer ++ c).drop mi.saltSize,
          key := derive st.password ((st.buffer ++ c).take mi.saltSize)
            mi.keySize,
          nonce := List.replicate mi.nonceSize 0,
          chunkId := 0, isFirstChunk := false }) _ le_rfl
      rw [hrun] at hfields
      have hnf : st1.isFirstChunk = false := by simpa using hfields.1
      have hq := processLoop_quiescent A mi _ _ st1 o1 le_rfl hrun
      rw [decTransform_notFirst A mi derive st1 [] hnf,
        List.append_nil]
      exact hq
  · have hF' : st.isFirstChunk = false := by simpa using hF
    rw [decTransform_notFirst A mi derive st c hF'] at hrun
    have hfields := processLoop_fields A mi
      (decMeasure { st with buffer := st.buffer ++ c }) _ le_rfl
    rw [hrun] at hfields
    have hnf : st1.isFirstChunk = false := by
      simpa [hF'] using hfields.1
    have hq := processLoop_quiescent A mi _ _ st1 o1 le_rfl hrun
    rw [decTransform_notFirst A mi derive st1 [] hnf, List.append_nil]
    exact hq

/-- Feeding a partition of a byte stream buffer by buffer produces the
same pushed plaintexts and the same error as feeding the whole stream in
one buffer, from any quiescent starting state. -/
theorem decFeed_flatten (A : AEADScheme) (mi : MethodInfo)
    (derive : List Nat → List Nat → Nat → List Nat) :
    ∀ (parts : List (List Nat)) (st : DecState),
      decTransform A mi derive st [] = (st, [], none) →
      (decFeedAll A mi derive st parts).2.1 =
        (decTransform A mi derive st parts.flatten).2.1 ∧
      (decFeedAll A mi derive st parts).2.2 =
        (decTransform A mi derive st parts.flatten).2.2 := by
  intro parts
  induction parts with
  | nil =>
    intro st hq
    simp [decFeedAll, hq]
  | cons c cs ih =>
    intro st hq
    rcases h1 : decTransform A mi derive st c with ⟨s1, o1, e1⟩
    cases e1 with
    | none =>
      have happ := decTransform_append_ok A mi derive st c cs.flatten s1 o1 h1
      have hq1 := decTransform_quiescent A mi derive st c s1 o1 h1
      obtain ⟨ho, he⟩ := ih s1 hq1
      simp only [decFeedAll, h1, List.flatten_cons, happ]
      exact ⟨by rw [ho], by rw [he]⟩
    | some e =>
      have happ := decTransform_append_err A mi derive st c cs.flatten s1 o1 e h1
      simp only [decFeedAll, h1, List.flatten_cons, happ]
      simp

/-! ## Decrypting a run of well-formed frames -/

/-- The payloadLength field left behind after decrypting a run of
frames: the last decrypted length field, or the incoming value when the
run is empty. -/
def lastPayloadLen : List (List Nat × List Nat) → Nat → Nat
  | [], d => d
  | q :: ps, _ => lastPayloadLen ps (readUInt16BE q.1)

/-- The decryptor state after consuming a run of frames: two nonces per
frame were used, the buffer holds the remainder, and the machine expects
a length field again. -/
def framesEnd (_mi : MethodInfo) (st : DecState)
    (pairs : List (List Nat × List Nat)) (rest : List Nat) : DecState :=
  { st with chunkId := st.chunkId + 2 * pairs.length,
            nonce := nonceBytes (st.chunkId + 2 * pairs.length),
            payloadLength := lastPayloadLen pairs st.payloadLength,
            buffer := rest }

/-- An empty run of frames leaves a nonce-aligned state unchanged apart
from the buffer. -/
theorem framesEnd_nil (mi : MethodInfo) (st : DecState) (rest : List Nat)
    (hnonce : st.nonce = nonceBytes st.chunkId) :
    framesEnd mi st [] rest = { st with buffer := rest } := by
  simp [framesEnd, lastPayloadLen, hnonce]

/-- Consuming the head frame and then the rest is consuming the whole
run. -/
theorem framesEnd_cons (mi : MethodInfo) (st : DecState)
    (lb p : List Nat) (ps : List (List Nat × List Nat)) (rest : List Nat)
    (hE : st.expectingLength = true) :
    framesEnd mi (stepPayState mi (stepLenState mi st lb)) ps rest =
      framesEnd mi st ((lb, p) :: ps) rest := by
  simp only [framesEnd, stepPayState, stepLenState, lastPayloadLen,
    List.length_cons, hE]
  have harith : st.chunkId + 1 + 1 + 2 * ps.length =
      st.chunkId + 2 * (ps.length + 1) := by omega
  simp [harith]

/-- Decrypting a run of well-formed frames laid out by the encryptor:
each payload is pushed in order, two nonces are consumed per frame, and
the loop continues on whatever follows the frames. -/
theorem processLoop_frames (A : AEADScheme) (mi : MethodInfo)
    (hA : AEADok A mi) (htag : 0 < mi.tagSize) (key : List Nat) :
    ∀ (pairs : List (List Nat × List Nat)) (st : DecState) (rest : List Nat),
      PairsOK pairs →
      st.expectingLength = true → st.key = key →
      st.nonce = nonceBytes st.chunkId →
      st.buffer = mkFramesL A key st.chunkId pairs ++ rest →
      processLoop A mi st =
        ((processLoop A mi (framesEnd mi st pairs rest)).1,
         pairs.map Prod.snd ++
           (processLoop A mi (framesEnd mi st pairs rest)).2.1,
         (processLoop A mi (framesEnd mi st pairs rest)).2.2) := by
  obtain ⟨hrt, hclen, htlen⟩ := hA
  intro pairs
  induction pairs with
  | nil =>
    intro st rest _ hE hkey hnonce hbuf
    rw [framesEnd_nil mi st rest hnonce]
    have : ({ st with buffer := rest } : DecState) = st := by
      simp only [mkFramesL, List.nil_append] at hbuf
      rw [← hbuf]
    rw [this]
    simp
  | cons q ps ih =>
    intro st rest hP hE hkey hnonce hbuf
    obtain ⟨lb, p⟩ := q
    obtain ⟨hlb2, hlbv⟩ := hP (lb, p) (List.mem_cons_self _ _)
    have hPs : PairsOK ps := fun q hq => hP q (List.mem_cons_of_mem _ hq)
    have heL : (A.enc key (nonceBytes st.chunkId) lb).1.length = 2 := by
      rw [hclen, hlb2]
    have htL : (A.enc key (nonceBytes st.chunkId) lb).2.length = mi.tagSize :=
      htlen _ _ _
    have heP : (A.enc key (nonceBytes (st.chunkId + 1)) p).1.length =
        p.length := hclen _ _ _
    have htP : (A.enc key (nonceBytes (st.chunkId + 1)) p).2.length =
        mi.tagSize := htlen _ _ _
    have hbuf2 : st.buffer =
        ((A.enc key (nonceBytes st.chunkId) lb).1 ++
          (A.enc key (nonceBytes st.chunkId) lb).2) ++
        ((A.enc key (nonceBytes (st.chunkId + 1)) p).1 ++
          ((A.enc key (nonceBytes (st.chunkId + 1)) p).2 ++
            (mkFramesL A key (st.chunkId + 2) ps ++ rest))) := by
      rw [hbuf]
      simp [mkFramesL, mkFrameL, List.append_assoc]
    have hLT : (((A.enc key (nonceBytes st.chunkId) lb).1 ++
        (A.enc key (nonceBytes st.chunkId) lb).2)).length =
        2 + mi.tagSize := by
      simp [List.length_append, heL, htL]
    have hne1 : ¬ (st.buffer.length = 0) := by
      rw [hbuf2]; simp only [List.length_append]; omega
    have hshort1 : ¬ (st.buffer.length < 2 + mi.tagSize) := by
      rw [hbuf2]; simp only [List.length_append]; omega
    have htake2 : st.buffer.take 2 = (A.enc key (nonceBytes st.chunkId) lb).1 := by
      rw [hbuf2, List.take_append_of_le_length (by omega),
        List.take_left' heL]
    have hdrtk : (st.buffer.drop 2).take mi.tagSize =
        (A.enc key (nonceBytes st.chunkId) lb).2 := by
      rw [hbuf2, List.drop_append_of_le_length (by omega),
        List.drop_left' heL, List.take_append_of_le_length (le_of_eq htL.symm),
        List.take_of_length_le (le_of_eq htL)]
    have hdrop18 : st.buffer.drop (2 + mi.tagSize) =
        (A.enc key (nonceBytes (st.chunkId + 1)) p).1 ++
          ((A.enc key (nonceBytes (st.chunkId + 1)) p).2 ++
            (mkFramesL A key (st.chunkId + 2) ps ++ rest)) := by
      rw [hbuf2, List.drop_left' hLT]
    rw [processLoop_eq, if_neg hne1, if_pos hE, if_neg hshort1]
    simp only [htake2, hdrtk, hkey, hnonce, hrt]
    have hstep1 : stepLenState mi st lb =
        { st with payloadLength := p.length,
                  chunkId := st.chunkId + 1,
                  nonce := nonceBytes (st.chunkId + 1),
                  expectingLength := false,
                  buffer :=
                    (A.enc key (nonceBytes (st.chunkId + 1)) p).1 ++
                      ((A.enc key (nonceBytes (st.chunkId + 1)) p).2 ++
                        (mkFramesL A key (st.chunkId + 2) ps ++ rest)) } := by
      simp only [stepLenState, hlbv, hdrop18]
    rw [hstep1]
    -- payload step
    have hpne : ¬ (((A.enc key (nonceBytes (st.chunkId + 1)) p).1 ++
        ((A.enc key (nonceBytes (st.chunkId + 1)) p).2 ++
          (mkFramesL A key (st.chunkId + 2) ps ++ rest))).length = 0) := by
      simp only [List.length_append]
      omega
    have hpshort : ¬ (((A.enc key (nonceBytes (st.chunkId + 1)) p).1 ++
        ((A.enc key (nonceBytes (st.chunkId + 1)) p).2 ++
          (mkFramesL A key (st.chunkId + 2) ps ++ rest))).length <
        p.length + mi.tagSize) := by
      simp only [List.length_append]
      omega
    have hptake : ((A.enc key (nonceBytes (st.chunkId + 1)) p).1 ++
        ((A.enc key (nonceBytes (st.chunkId + 1)) p).2 ++
          (mkFramesL A key (st.chunkId + 2) ps ++ rest))).take p.length =
        (A.enc key (nonceBytes (st.chunkId + 1)) p).1 :=
      List.take_left' heP
    have hpdrtk : (((A.enc key (nonceBytes (st.chunkId + 1)) p).1 ++
        ((A.enc key (nonceBytes (st.chunkId + 1)) p).2 ++
          (mkFramesL A key (st.chunkId + 2) ps ++ rest))).drop p.length).take
          mi.tagSize =
        (A.enc key (nonceBytes (st.chunkId + 1)) p).2 := by
      rw [List.drop_left' heP,
        List.take_append_of_le_length (le_of_eq htP.symm),
        List.take_of_length_le (le_of_eq htP)]
    have hPT : ((A.enc key (nonceBytes (st.chunkId + 1)) p).1 ++
        (A.enc key (nonceBytes (st.chunkId + 1)) p).2).length =
        p.length + mi.tagSize := by
      simp [List.length_append, heP, htP]
    have hpdrop : ((A.enc key (nonceBytes (st.chunkId + 1)) p).1 ++
        ((A.enc key (nonceBytes (st.chunkId + 1)) p).2 ++
          (mkFramesL A key (st.chunkId + 2) ps ++ rest))).drop
          (p.length + mi.tagSize) =
        mkFramesL A key (st.chunkId + 2) ps ++ rest := by
      rw [← List.append_assoc, List.drop_left' hPT]
    rw [processLoop_eq]
    simp only [hpne, hpshort, hptake, hpdrtk, hkey, hrt, Bool.false_eq_true,
      if_false, reduceIte, stepPayState, hpdrop]
    have hstPay := ih
      { st with key := key,
                payloadLength := p.length,
                chunkId := st.chunkId + 1 + 1,
                nonce := nonceBytes (st.chunkId + 1 + 1),
                expectingLength := true,
                buffer := mkFramesL A key (st.chunkId + 2) ps ++ rest }
      rest hPs rfl rfl rfl rfl
    rw [hstPay]
    have harith : st.chunkId + 1 + 1 + 2 * ps.length =
        st.chunkId + 2 * (ps.length + 1) := by omega
    have hend : framesEnd mi
        { st with key := key,
                  payloadLength := p.length,
                  chunkId := st.chunkId + 1 + 1,
                  nonce := nonceBytes (st.chunkId + 1 + 1),
                  expectingLength := true,
                  buffer := mkFramesL A key (st.chunkId + 2) ps ++ rest }
        ps rest = framesEnd mi st ((lb, p) :: ps) rest := by
      simp [framesEnd, lastPayloadLen, hlbv, hE, hkey, harith, List.length_cons]
    rw [hend]
    simp

/-- The decryptor state right after the salt has been consumed from the
front of the stream. -/
def postSalt (mi : MethodInfo)
    (derive : List Nat → List Nat → Nat → List Nat)
    (pw salt body : List Nat) : DecState :=
  { password := pw, key := derive pw salt mi.keySize,
    nonce := List.replicate mi.nonceSize 0, isFirstChunk := false,
    chunkId := 0, buffer := body, expectingLength := true,
    payloadLength := 0 }

/-- A fresh decryptor fed a full salt followed by a body consumes the
salt and runs the loop on the body. -/
theorem decTransform_init (A : AEADScheme) (mi : MethodInfo)
    (derive : List Nat → List Nat → Nat → List Nat)
    (pw salt body : List Nat) (hsl : salt.length = mi.saltSize) :
    decTransform A mi derive (initDec mi pw) (salt ++ body) =
      processLoop A mi (postSalt mi derive pw salt body) := by
  rw [decTransform_first_salt A mi derive (initDec mi pw) (salt ++ body) rfl
    (by simp [initDec, List.length_append, hsl])]
  have h1 : (initDec mi pw).buffer ++ (salt ++ body) = salt ++ body := by
    simp [initDec]
  rw [h1, List.take_left' hsl, List.drop_left' hsl]
  rfl

/-- The all-zero fresh nonce buffer is the counter encoding of zero. -/
theorem nonceBytes_zero : nonceBytes 0 = List.replicate 12 0 := by decide

/-! ## Encryptor runs -/

/-- A non-first write of a nonempty chunk within the 16-bit length bound
emits exactly one frame over the whole chunk and consumes two nonces. -/
theorem encTransform_steady (A : AEADScheme) (mi : MethodInfo)
    (derive : List Nat → List Nat → Nat → List Nat)
    (st : EncState) (chunk key : List Nat)
    (hnf : st.isFirstChunk = false) (hkey : st.key = key)
    (hnonce : st.nonce = nonceBytes st.chunkId)
    (hnz : chunk.length ≠ 0) (hle : chunk.length ≤ 0xFFFF) :
    encTransform A mi derive st chunk =
      ({ st with chunkId := st.chunkId + 2,
                 nonce := nonceBytes (st.chunkId + 2) },
       mkFrameL A key st.chunkId (writeUInt16BE chunk.length) chunk,
       none) := by
  simp only [encTransform, hnf, Bool.false_eq_true, if_false, reduceIte,
    hkey, hnonce, mkFrameL]
  rw [if_neg hnz, if_neg (by omega)]
  simp

/-- An error-free run of non-first writes: the output is the frame run
over the nonempty chunks and the counter advances twice per frame. -/
theorem encFeedAll_steady (A : AEADScheme) (mi : MethodInfo)
    (derive : List Nat → List Nat → Nat → List Nat) (key : List Nat) :
    ∀ (P : List (List Nat)) (st : EncState),
      st.isFirstChunk = false → st.key = key →
      st.nonce = nonceBytes st.chunkId →
      (∀ b ∈ P, b.length ≤ 0xFFFF) →
      encFeedAll A mi derive st P =
        ({ st with
             chunkId := st.chunkId + 2 * (P.filter (fun b => ¬ b = [])).length,
             nonce := nonceBytes
               (st.chunkId + 2 * (P.filter (fun b => ¬ b = [])).length) },
         mkFrames A key st.chunkId (P.filter (fun b => ¬ b = [])),
         none) := by
  intro P
  induction P with
  | nil =>
    intro st hnf hkey hnonce _
    simp [encFeedAll, mkFrames, mkFramesL, ← hnonce]
  | cons c cs ih =>
    intro st hnf hkey hnonce hall
    by_cases hc : c = []
    · subst hc
      have hstep : encTransform A mi derive st [] = (st, [], none) := by
        simp [encTransform, hnf]
      simp only [encFeedAll, hstep]
      rw [ih st hnf hkey hnonce (fun b hb => hall b (List.mem_cons_of_mem _ hb))]
      simp [List.filter_cons]
    · have hnz : c.length ≠ 0 := by
        simpa [List.length_eq_zero] using hc
      have hstep := encTransform_steady A mi derive st c key hnf hkey hnonce
        hnz (hall c (List.mem_cons_self _ _))
      simp only [encFeedAll, hstep]
      rw [ih { st with chunkId := st.chunkId + 2,
                       nonce := nonceBytes (st.chunkId + 2) }
        hnf hkey rfl (fun b hb => hall b (List.mem_cons_of_mem _ hb))]
      have hfil : (c :: cs).filter (fun b => ¬ b = []) =
          c :: cs.filter (fun b => ¬ b = []) := by
        simp [List.filter_cons, hc]
      rw [hfil]
      have harith : st.chunkId + 2 + 2 * (cs.filter (fun b => ¬ b = [])).length =
          st.chunkId + 2 * ((cs.filter (fun b => ¬ b = [])).length + 1) := by
        omega
      simp [mkFrames, mkFramesL, List.length_cons, List.append_assoc]
      exact ⟨congrArg nonceBytes (by omega), by omega⟩

/-- The first write, with a nonempty in-bounds chunk: push the salt, set
up the key, emit one frame under nonces zero and one. -/
theorem encTransform_first (A : AEADScheme) (mi : MethodInfo)
    (derive : List Nat → List Nat → Nat → List Nat)
    (st : EncState) (chunk key : List Nat)
    (hF : st.isFirstChunk = true)
    (hkeyd : derive st.password st.salt mi.keySize = key)
    (hn12 : mi.nonceSize = 12)
    (hnz : chunk.length ≠ 0) (hle : chunk.length ≤ 0xFFFF) :
    encTransform A mi derive st chunk =
      ({ st with key := key, nonce := nonceBytes 2, chunkId := 2,
                 isFirstChunk := false },
       st.salt ++ mkFrameL A key 0 (writeUInt16BE chunk.length) chunk,
       none) := by
  simp only [encTransform, hF, if_true, reduceIte, hkeyd, hn12,
    ← nonceBytes_zero, mkFrameL]
  rw [if_neg hnz, if_neg (by omega)]

/-- The first write with an empty chunk: push the salt, set up the key,
emit no frame. -/
theorem encTransform_first_empty (A : AEADScheme) (mi : MethodInfo)
    (derive : List Nat → List Nat → Nat → List Nat)
    (st : EncState) (key : List Nat)
    (hF : st.isFirstChunk = true)
    (hkeyd : derive st.password st.salt mi.keySize = key) :
    encTransform A mi derive st [] =
      ({ st with key := key, nonce := List.replicate mi.nonceSize 0,
                 chunkId := 0, isFirstChunk := false },
       st.salt, none) := by
  simp [encTransform, hF, hkeyd]

/-- The first write with a chunk beyond the 16-bit length bound: the
salt is pushed, then Buffer.writeUInt16BE throws and the stream errors. -/
theorem encTransform_first_big (A : AEADScheme) (mi : MethodInfo)
    (derive : List Nat → List Nat → Nat → List Nat)
    (st : EncState) (chunk key : List Nat)
    (hF : st.isFirstChunk = true)
    (hkeyd : derive st.password st.salt mi.keySize = key)
    (hbig : 0xFFFF < chunk.length) :
    encTransform A mi derive st chunk =
      ({ st with key := key, nonce := List.replicate mi.nonceSize 0,
                 chunkId := 0, isFirstChunk := false },
       st.salt, some "RangeError") := by
  simp only [encTransform, hF, if_true, reduceIte, hkeyd]
  rw [if_neg (by omega), if_pos hbig]

/-- An error-free run of a fresh encryptor on a nonempty list of
buffers: the wire output is the salt followed by one frame per nonempty
buffer, under the key derived from the password and the salt. -/
theorem encFeedAll_init (A : AEADScheme) (mi : MethodInfo)
    (derive : List Nat → List Nat → Nat → List Nat)
    (pw salt : List Nat) (P : List (List Nat))
    (hall : ∀ b ∈ P, b.length ≤ 0xFFFF) (hn12 : mi.nonceSize = 12)
    (hPne : P ≠ []) :
    (encFeedAll A mi derive (initEnc mi pw salt) P).2.1 =
      salt ++ mkFrames A (derive pw salt mi.keySize) 0
        (P.filter (fun b => ¬ b = [])) ∧
    (encFeedAll A mi derive (initEnc mi pw salt) P).2.2 = none := by
  obtain ⟨c, cs, rfl⟩ : ∃ c cs, P = c :: cs := by
    cases P with
    | nil => exact absurd rfl hPne
    | cons c cs => exact ⟨c, cs, rfl⟩
  have hsalt0 : (initEnc mi pw salt).salt = salt := rfl
  by_cases hc : c = []
  · subst hc
    have hstep := encTransform_first_empty A mi derive (initEnc mi pw salt)
      (derive pw salt mi.keySize) rfl rfl
    simp only [encFeedAll, hstep]
    rw [encFeedAll_steady A mi derive (derive pw salt mi.keySize) cs _ rfl rfl
      (by simp [hn12, nonceBytes_zero])
      (fun b hb => hall b (List.mem_cons_of_mem _ hb))]
    simp [List.filter_cons, initEnc]
  · have hnz : c.length ≠ 0 := by simpa [List.length_eq_zero] using hc
    have hstep := encTransform_first A mi derive (initEnc mi pw salt) c
      (derive pw salt mi.keySize) rfl rfl hn12 hnz
      (hall c (List.mem_cons_self _ _))
    simp only [encFeedAll, hstep]
    rw [encFeedAll_steady A mi derive (derive pw salt mi.keySize) cs _ rfl rfl
      rfl (fun b hb => hall b (List.mem_cons_of_mem _ hb))]
    have hfil : (c :: cs).filter (fun b => ¬ b = []) =
        c :: cs.filter (fun b => ¬ b = []) := by
      simp [List.filter_cons, hc]
    rw [hfil]
    simp [mkFrames, mkFramesL, initEnc, List.append_assoc]

/-! ## Key schedule equivalence -/

/-- The concatenated digests of the first n rounds have sixteen bytes
per round. -/
theorem specJoin_length (md5 : List Nat → List Nat) (pw : List Nat)
    (hmd5 : ∀ x, (md5 x).length = 16) :
    ∀ n, ((List.range n).map (specEvpDigest md5 pw)).flatten.length =
      n * 16 := by
  intro n
  induction n with
  | zero => simp
  | succ n ih =>
    have hdl : (specEvpDigest md5 pw n).length = 16 := by
      cases n <;> simp [specEvpDigest, hmd5]
    rw [List.range_succ]
    simp only [List.map_append, List.flatten_append, List.length_append, ih]
    simp [hdl]
    omega

/-- Invariant of the EVP_BytesToKey loop: after n of r rounds the result
buffer holds the first n digests followed by zeros, and lastRound holds
the latest digest. -/
theorem evpLoop_inv (md5 : List Nat → List Nat) (pw : List Nat)
    (hmd5 : ∀ x, (md5 x).length = 16) (r : Nat) :
    ∀ n, n ≤ r →
      (List.range n).foldl (fun st i => evpStep md5 pw i st)
        (List.replicate (r * 16) 0, []) =
      (((List.range n).map (specEvpDigest md5 pw)).flatten ++
        List.replicate ((r - n) * 16) 0,
       if n = 0 then [] else specEvpDigest md5 pw (n - 1)) := by
  intro n
  induction n with
  | zero => simp
  | succ n ih =>
    intro hle
    rw [List.range_succ, List.foldl_append, ih (by omega)]
    have hd : md5 ((if 0 < n then
        (if n = 0 then [] else specEvpDigest md5 pw (n - 1)) else []) ++ pw) =
        specEvpDigest md5 pw n := by
      cases n with
      | zero => simp [specEvpDigest]
      | succ m => simp [specEvpDigest]
    have hJ : ((List.range n).map (specEvpDigest md5 pw)).flatten.length =
        n * 16 := specJoin_length md5 pw hmd5 n
    simp only [List.foldl_cons, List.foldl_nil, evpStep, hd, listCopy]
    have hlen1 : (((List.range n).map (specEvpDigest md5 pw)).flatten ++
        List.replicate ((r - n) * 16) 0).length = r * 16 := by
      simp [List.length_append, hJ]
      omega
    have htake1 : (((List.range n).map (specEvpDigest md5 pw)).flatten ++
        List.replicate ((r - n) * 16) 0).take (n * 16) =
        ((List.range n).map (specEvpDigest md5 pw)).flatten := by
      rw [List.take_append_of_le_length (le_of_eq hJ.symm),
        List.take_of_length_le (le_of_eq hJ)]
    have hdlen : (specEvpDigest md5 pw n).length = 16 := by
      cases n <;> simp [specEvpDigest, hmd5]
    have htake2 : (specEvpDigest md5 pw n).take (r * 16 - n * 16) =
        specEvpDigest md5 pw n :=
      List.take_of_length_le (by omega)
    have hmin : min (specEvpDigest md5 pw n).length (r * 16 - n * 16) = 16 := by
      rw [hdlen]; omega
    have hdrop : (((List.range n).map (specEvpDigest md5 pw)).flatten ++
        List.replicate ((r - n) * 16) 0).drop (n * 16 + 16) =
        List.replicate ((r - (n + 1)) * 16) 0 := by
      rw [show n * 16 + 16 = ((List.range n).map
          (specEvpDigest md5 pw)).flatten.length + 16 by omega,
        List.drop_append, List.drop_replicate]
      congr 1
      omega
    rw [hlen1, htake1, htake2, hmin, hdrop]
    simp [List.range_succ, List.flatten_append, List.append_assoc]

/-- EVP_BytesToKey of methods.js computes the password stretch of the
spec. -/
theorem EVP_BytesToKey_spec (md5 : List Nat → List Nat) (pw : List Nat)
    (hmd5 : ∀ x, (md5 x).length = 16) (keyLen : Nat) :
    EVP_BytesToKey md5 pw keyLen = specEVP md5 pw keyLen := by
  simp only [EVP_BytesToKey, specEVP]
  rw [evpLoop_inv md5 pw hmd5 ((keyLen + 15) / 16) ((keyLen + 15) / 16)
    le_rfl]
  simp

/-! ## Claims -/

/-- C6: the nonce schedule of updateNonce.  The source comment says the
chunk id is stored as a little-endian unsigned 64-bit integer, but the
JavaScript shift coerces to 32 bits: the nonce equals the little-endian
encoding of the counter for small counters, yet at counter 2 to the 31
the sign extension writes 0xFF into bytes four to seven instead of the
encoding, and at counter 2 to the 32 the nonce repeats the all-zero
nonce of counter 0. -/
theorem C6_nonce_schedule_32bit_slip :
    nonceBytes 5 = leEnc12 5 ∧
    nonceBytes (2 ^ 31) = [0, 0, 0, 128, 255, 255, 255, 255, 0, 0, 0, 0] ∧
    leEnc12 (2 ^ 31) = [0, 0, 0, 128, 0, 0, 0, 0, 0, 0, 0, 0] ∧
    nonceBytes (2 ^ 31) ≠ leEnc12 (2 ^ 31) ∧
    nonceBytes (2 ^ 32) = nonceBytes 0 := by decide

/-- C4 counterexample: a complete greeting offering only method 0x02 (no
0x00) is answered with five zero, not five 0xFF. -/
theorem C4_handshake_counterexample :
    handleSocksHandshake [5, 1, 2] = HsAction.reply [5, 0] ∧
    handleSocksHandshake [5, 1, 2] ≠ HsAction.reply [5, 255] ∧
    0 ∉ offeredMethods [5, 1, 2] := by decide

/-- C4 amended: once a complete greeting with version byte five has
arrived, handleSocksHandshake replies five zero unconditionally,
regardless of the offered methods. -/
theorem C4_handshake_unconditional (buf : List Nat)
    (hver : buf.getD 0 0 = 5) (hcomplete : 2 + buf.getD 1 0 ≤ buf.length) :
    handleSocksHandshake buf = HsAction.reply [5, 0] := by
  unfold handleSocksHandshake
  rw [if_neg (by omega), if_neg (not_not_intro hver), if_neg (by omega)]

/-- C4 witness: the amended statement at the greeting of the
counterexample. -/
theorem C4_handshake_witness :
    handleSocksHandshake [5, 1, 2] = HsAction.reply [5, 0] :=
  C4_handshake_unconditional [5, 1, 2] (by decide) (by decide)

/-- C5 counterexample: a complete IPv6 CONNECT request is forwarded to
the remote server as the target address record, not answered with reply
code eight. -/
theorem C5_ipv6_counterexample :
    handleSocksRequest ([5, 1, 0, 4] ++ List.replicate 16 170 ++ [0, 80]) =
      ReqAction.connect ([4] ++ List.replicate 16 170 ++ [0, 80]) ∧
    handleSocksRequest ([5, 1, 0, 4] ++ List.replicate 16 170 ++ [0, 80]) ≠
      ReqAction.replyClose [5, 8, 0, 1, 0, 0, 0, 0, 0, 0] := by decide

/-- C5 amended: every complete IPv6 CONNECT request is forwarded: the
client connects to the remote with the sixteen-byte address and the port
as the target record; reply code eight is reserved for address types
other than one, three and four. -/
theorem C5_ipv6_forwarded (addr : List Nat) (ph pl : Nat)
    (haddr : addr.length = 16) :
    handleSocksRequest ([5, 1, 0, 4] ++ addr ++ [ph, pl]) =
      ReqAction.connect ([4] ++ addr ++ [ph, pl]) := by
  have hbuf : [5, 1, 0, 4] ++ addr ++ [ph, pl] =
      5 :: 1 :: 0 :: 4 :: (addr ++ [ph, pl]) := by simp
  rw [hbuf]
  have hlen : (5 :: 1 :: 0 :: 4 :: (addr ++ [ph, pl])).length = 22 := by
    simp [haddr]
  unfold handleSocksRequest finishRequest
  rw [hlen]
  norm_num [List.getD_cons_succ, List.getD_cons_zero]
  omega

/-- C5 witness: the amended statement at the request of the
counterexample. -/
theorem C5_ipv6_witness :
    handleSocksRequest ([5, 1, 0, 4] ++ List.replicate 16 7 ++ [1, 187]) =
      ReqAction.connect ([4] ++ List.replicate 16 7 ++ [1, 187]) :=
  C5_ipv6_forwarded (List.replicate 16 7) 1 187 (by decide)

/-- C7: deriveKey of methods.js is the pure two-stage derivation of the
spec: HKDF with SHA1 over the MD5 password stretch, keyed by the salt,
with the nine-byte ASCII info string ss-subkey and the suite's key
length. -/
theorem C7_deriveKey_spec
    (hkdfSha1 : List Nat → List Nat → List Nat → Nat → List Nat)
    (md5 : List Nat → List Nat) (pw salt : List Nat) (keySize : Nat)
    (hmd5 : ∀ x, (md5 x).length = 16) :
    deriveKey hkdfSha1 md5 pw salt keySize =
      specDeriveKey hkdfSha1 md5 pw salt keySize ∧
    ssSubkeyInfo = "ss-subkey".toList.map Char.toNat ∧
    ssSubkeyInfo.length = 9 := by
  refine ⟨?_, by decide, by decide⟩
  unfold deriveKey specDeriveKey
  rw [EVP_BytesToKey_spec md5 pw hmd5 keySize]

/-- C7 witness: the derivation equivalence at a concrete 16-byte digest
function and key size 32. -/
theorem C7_deriveKey_witness :
    deriveKey (fun ikm s i l => (ikm ++ s ++ i).take l)
      (fun x => List.replicate 16 (x.length % 256)) [1, 2] [3] 32 =
      specDeriveKey (fun ikm s i l => (ikm ++ s ++ i).take l)
        (fun x => List.replicate 16 (x.length % 256)) [1, 2] [3] 32 ∧
    ssSubkeyInfo = "ss-subkey".toList.map Char.toNat ∧
    ssSubkeyInfo.length = 9 :=
  C7_deriveKey_spec (fun ikm s i l => (ikm ++ s ++ i).take l)
    (fun x => List.replicate 16 (x.length % 256)) [1, 2] [3] 32
    (fun x => by simp)

/-- C3 counterexample: a frame whose length field decrypts to zero, with
valid tags, is processed without any error; the decryptor does not
reject it. -/
theorem C3_length_check_counterexample :
    readUInt16BE [0, 0] = 0 ∧
    (decFeedAll toyAEAD aes256gcm toyDerive (initDec aes256gcm [9])
        [List.replicate 32 5 ++
          ([0, 0] ++ (List.replicate 16 0 ++ List.replicate 16 0))]).2.2 =
      none := by decide

/-- C3 amended: the decryptor performs no range check on the decrypted
length field.  Any frame whose two-byte length field decrypts to the
length of the following payload is accepted, the payload is pushed, and
no error is raised; no condition excludes length zero or lengths above
0x3FFF. -/
theorem C3_no_length_range_check (A : AEADScheme) (mi : MethodInfo)
    (hA : AEADok A mi) (hsup : SupportedMethod mi)
    (derive : List Nat → List Nat → Nat → List Nat)
    (pw salt lb p : List Nat)
    (hsl : salt.length = mi.saltSize)
    (hlb : lb.length = 2) (hlv : readUInt16BE lb = p.length) :
    (decTransform A mi derive (initDec mi pw)
        (salt ++ mkFrameL A (derive pw salt mi.keySize) 0 lb p)).2.1 =
      [p] ∧
    (decTransform A mi derive (initDec mi pw)
        (salt ++ mkFrameL A (derive pw salt mi.keySize) 0 lb p)).2.2 =
      none := by
  have hn12 : mi.nonceSize = 12 := by
    rcases hsup with rfl | rfl | rfl <;> rfl
  have htag : 0 < mi.tagSize := by
    rcases hsup with rfl | rfl | rfl <;> decide
  rw [decTransform_init A mi derive pw salt _ hsl]
  have hframes := processLoop_frames A mi hA htag
    (derive pw salt mi.keySize) [(lb, p)]
    (postSalt mi derive pw salt
      (mkFrameL A (derive pw salt mi.keySize) 0 lb p)) []
    (by intro q hq
        rcases List.mem_singleton.mp hq with rfl
        exact ⟨hlb, hlv⟩)
    rfl rfl
    (by show List.replicate mi.nonceSize 0 = nonceBytes 0
        rw [hn12]; exact nonceBytes_zero.symm)
    (by show mkFrameL A (derive pw salt mi.keySize) 0 lb p =
          mkFramesL A (derive pw salt mi.keySize) 0 [(lb, p)] ++ []
        simp [mkFramesL])
  rw [hframes]
  have hterm : processLoop A mi
      (framesEnd mi (postSalt mi derive pw salt
        (mkFrameL A (derive pw salt mi.keySize) 0 lb p)) [(lb, p)] []) =
      (framesEnd mi (postSalt mi derive pw salt
        (mkFrameL A (derive pw salt mi.keySize) 0 lb p)) [(lb, p)] [],
       [], none) := by
    rw [processLoop_eq]
    simp [framesEnd]
  rw [hterm]
  simp

/-- C3 witness: a frame with length field zero and empty payload is
accepted by the decryptor, pushing the empty payload without error. -/
theorem C3_no_length_range_check_witness :
    (decTransform toyAEAD aes256gcm toyDerive (initDec aes256gcm [7])
        (List.replicate 32 9 ++
          mkFrameL toyAEAD (toyDerive [7] (List.replicate 32 9) 32) 0
            [0, 0] [])).2.1 = [[]] ∧
    (decTransform toyAEAD aes256gcm toyDerive (initDec aes256gcm [7])
        (List.replicate 32 9 ++
          mkFrameL toyAEAD (toyDerive [7] (List.replicate 32 9) 32) 0
            [0, 0] [])).2.2 = none :=
  C3_no_length_range_check toyAEAD aes256gcm (toyAEADok aes256gcm rfl)
    (Or.inr (Or.inl rfl)) toyDerive [7] (List.replicate 32 9) [0, 0] []
    (by decide) (by decide) (by decide)

/-- C2 counterexample: a 16384-byte buffer written to a running
encryptor is not emitted as two sub-chunk frames of at most 0x3FFF
bytes; no decomposition into ceil(16384 over 0x3FFF) bounded sub-chunks
matches the emitted bytes, whose single length field encodes 16384. -/
theorem C2_split_counterexample :
    ¬ ∃ cs : List (List Nat),
        cs.flatten = List.replicate 16384 171 ∧
        cs.length = (16384 + 0x3FFE) / 0x3FFF ∧
        (∀ c ∈ cs, c.length ≤ 0x3FFF) ∧
        (encTransform toyAEAD aes256gcm toyDerive
          { password := [7], salt := List.replicate 32 9,
            key := toyDerive [7] (List.replicate 32 9) 32,
            nonce := nonceBytes 0, isFirstChunk := false, chunkId := 0 }
          (List.replicate 16384 171)).2.1 =
          mkFrames toyAEAD (toyDerive [7] (List.replicate 32 9) 32) 0 cs := by
  rintro ⟨cs, hflat, hlen, hbound, hout⟩
  have henc := encTransform_steady toyAEAD aes256gcm toyDerive
    { password := [7], salt := List.replicate 32 9,
      key := toyDerive [7] (List.replicate 32 9) 32,
      nonce := nonceBytes 0, isFirstChunk := false, chunkId := 0 }
    (List.replicate 16384 171) (toyDerive [7] (List.replicate 32 9) 32)
    rfl rfl rfl (by simp only [List.length_replicate]; norm_num)
    (by simp only [List.length_replicate]; norm_num)
  rw [henc] at hout
  have hlen2 : cs.length = 2 := by norm_num at hlen; exact hlen
  obtain ⟨c1, c2, rfl⟩ : ∃ c1 c2, cs = [c1, c2] := by
    match cs, hlen2 with
    | [c1, c2], _ => exact ⟨c1, c2, rfl⟩
  have h2 := congrArg (List.take 2) hout
  simp only [mkFrameL, mkFrames, mkFramesL, toyAEAD, writeUInt16BE,
    List.length_replicate, List.map_cons, List.cons_append,
    List.nil_append] at h2
  norm_num at h2
  have hc1 := hbound c1 (List.mem_cons_self _ _)
  omega

/-- C2 amended: the encryptor never splits: a non-first buffer of any
length from one to 0xFFFF bytes, including lengths above 0x3FFF, is
emitted as exactly one frame whose length field encodes the whole
buffer length. -/
theorem C2_no_split_single_frame (A : AEADScheme) (mi : MethodInfo)
    (derive : List Nat → List Nat → Nat → List Nat)
    (st : EncState) (chunk key : List Nat)
    (hnf : st.isFirstChunk = false) (hkey : st.key = key)
    (hnonce : st.nonce = nonceBytes st.chunkId)
    (hnz : chunk.length ≠ 0) (hle : chunk.length ≤ 0xFFFF) :
    encTransform A mi derive st chunk =
      ({ st with chunkId := st.chunkId + 2,
                 nonce := nonceBytes (st.chunkId + 2) },
       mkFrameL A key st.chunkId (writeUInt16BE chunk.length) chunk,
       none) :=
  encTransform_steady A mi derive st chunk key hnf hkey hnonce hnz hle

/-- C2 witness: a 16400-byte buffer, above the protocol's 0x3FFF cap,
emitted as one single frame. -/
theorem C2_no_split_witness :
    encTransform toyAEAD aes256gcm toyDerive
      { password := [7], salt := List.replicate 32 9,
        key := toyDerive [7] (List.replicate 32 9) 32,
        nonce := nonceBytes 0, isFirstChunk := false, chunkId := 0 }
      (List.replicate 16400 1) =
      ({ password := [7], salt := List.replicate 32 9,
         key := toyDerive [7] (List.replicate 32 9) 32,
         nonce := nonceBytes 2, isFirstChunk := false, chunkId := 2 },
       mkFrameL toyAEAD (toyDerive [7] (List.replicate 32 9) 32) 0
         (writeUInt16BE (List.replicate 16400 1).length)
         (List.replicate 16400 1),
       none) :=
  C2_no_split_single_frame toyAEAD aes256gcm toyDerive _
    (List.replicate 16400 1) (toyDerive [7] (List.replicate 32 9) 32)
    rfl rfl rfl (by simp only [List.length_replicate]; norm_num)
    (by simp only [List.length_replicate]; norm_num)

/-- Reading back a written 16-bit length gives the value, within the
writable range. -/
theorem readUInt16BE_writeUInt16BE (n : Nat) (_h : n ≤ 0xFFFF) :
    readUInt16BE (writeUInt16BE n) = n := by
  simp [readUInt16BE, writeUInt16BE]
  omega

/-- C1 counterexample: with a 65536-byte input buffer the encryptor
throws in Buffer.writeUInt16BE after pushing only the salt, so
decrypting its emitted output yields nothing, not the plaintext. -/
theorem C1_roundtrip_counterexample :
    (encFeedAll toyAEAD aes256gcm toyDerive
        (initEnc aes256gcm [7] (List.replicate 32 9))
        [List.replicate 65536 0]).2.2 = some "RangeError" ∧
    ((decFeedAll toyAEAD aes256gcm toyDerive (initDec aes256gcm [7])
        [(encFeedAll toyAEAD aes256gcm toyDerive
            (initEnc aes256gcm [7] (List.replicate 32 9))
            [List.replicate 65536 0]).2.1]).2.1).flatten = [] ∧
    ([List.replicate 65536 0] : List (List Nat)).flatten ≠ [] := by
  have hbig := encTransform_first_big toyAEAD aes256gcm toyDerive
    (initEnc aes256gcm [7] (List.replicate 32 9)) (List.replicate 65536 0)
    (toyDerive [7] (List.replicate 32 9) 32) rfl rfl
    (by simp only [List.length_replicate]; norm_num)
  have hfeed : encFeedAll toyAEAD aes256gcm toyDerive
      (initEnc aes256gcm [7] (List.replicate 32 9))
      [List.replicate 65536 0] =
      ({ initEnc aes256gcm [7] (List.replicate 32 9) with
           key := toyDerive [7] (List.replicate 32 9) 32,
           nonce := List.replicate 12 0, chunkId := 0,
           isFirstChunk := false },
       List.replicate 32 9, some "RangeError") := by
    rw [encFeedAll, hbig]
    rfl
  refine ⟨by rw [hfeed], ?_, ?_⟩
  · rw [hfeed]
    decide
  · intro h
    have := congrArg List.length h
    simp only [List.flatten_cons, List.flatten_nil, List.append_nil,
      List.length_replicate, List.length_nil] at this
    omega

/-- C1 amended: the round trip holds for every sequence of input buffers
each at most 0xFFFF bytes long: encryption succeeds, and feeding the
whole encrypted output to a fresh decryptor with the same method and
password reproduces the concatenated plaintext without error.  Buffers
above 0xFFFF bytes are excluded because Buffer.writeUInt16BE throws on
them, aborting the stream. -/
theorem C1_roundtrip_amended (A : AEADScheme) (mi : MethodInfo)
    (hA : AEADok A mi) (hsup : SupportedMethod mi)
    (derive : List Nat → List Nat → Nat → List Nat)
    (pw salt : List Nat) (P : List (List Nat))
    (hsl : salt.length = mi.saltSize)
    (hall : ∀ b ∈ P, b.length ≤ 0xFFFF) :
    (encFeedAll A mi derive (initEnc mi pw salt) P).2.2 = none ∧
    ((decFeedAll A mi derive (initDec mi pw)
        [(encFeedAll A mi derive (initEnc mi pw salt) P).2.1]).2.1).flatten =
      P.flatten ∧
    (decFeedAll A mi derive (initDec mi pw)
        [(encFeedAll A mi derive (initEnc mi pw salt) P).2.1]).2.2 =
      none := by
  have hn12 : mi.nonceSize = 12 := by
    rcases hsup with rfl | rfl | rfl <;> rfl
  have htag : 0 < mi.tagSize := by
    rcases hsup with rfl | rfl | rfl <;> decide
  have hsp : 0 < mi.saltSize := by
    rcases hsup with rfl | rfl | rfl <;> decide
  by_cases hP : P = []
  · subst hP
    have hwait := decTransform_first_wait A mi derive (initDec mi pw) []
      rfl (by simp [initDec]; omega)
    simp [encFeedAll, decFeedAll, hwait]
  · obtain ⟨hwire, hencerr⟩ := encFeedAll_init A mi derive pw salt P hall
      hn12 hP
    have hpairs : PairsOK ((P.filter (fun b => ¬ b = [])).map
        (fun p => (writeUInt16BE p.length, p))) := by
      intro q hq
      obtain ⟨p', hp', rfl⟩ := List.mem_map.mp hq
      exact ⟨rfl, readUInt16BE_writeUInt16BE p'.length
        (hall p' (List.mem_of_mem_filter hp'))⟩
    have hframes := processLoop_frames A mi hA htag
      (derive pw salt mi.keySize)
      ((P.filter (fun b => ¬ b = [])).map
        (fun p => (writeUInt16BE p.length, p)))
      (postSalt mi derive pw salt
        (mkFrames A (derive pw salt mi.keySize) 0
          (P.filter (fun b => ¬ b = [])))) []
      hpairs rfl rfl
      (by show List.replicate mi.nonceSize 0 = nonceBytes 0
          rw [hn12]; exact nonceBytes_zero.symm)
      (by show mkFrames A (derive pw salt mi.keySize) 0
            (P.filter (fun b => ¬ b = [])) =
          mkFramesL A (derive pw salt mi.keySize) 0
            ((P.filter (fun b => ¬ b = [])).map
              (fun p => (writeUInt16BE p.length, p))) ++ []
          simp [mkFrames])
    have hterm : processLoop A mi
        (framesEnd mi (postSalt mi derive pw salt
          (mkFrames A (derive pw salt mi.keySize) 0
            (P.filter (fun b => ¬ b = []))))
          ((P.filter (fun b => ¬ b = [])).map
            (fun p => (writeUInt16BE p.length, p))) []) =
        (framesEnd mi (postSalt mi derive pw salt
          (mkFrames A (derive pw salt mi.keySize) 0
            (P.filter (fun b => ¬ b = []))))
          ((P.filter (fun b => ¬ b = [])).map
            (fun p => (writeUInt16BE p.length, p))) [],
         [], none) := by
      rw [processLoop_eq]
      simp [framesEnd]
    have hdecT : decTransform A mi derive (initDec mi pw)
        (salt ++ mkFrames A (derive pw salt mi.keySize) 0
          (P.filter (fun b => ¬ b = []))) =
        (framesEnd mi (postSalt mi derive pw salt
          (mkFrames A (derive pw salt mi.keySize) 0
            (P.filter (fun b => ¬ b = []))))
          ((P.filter (fun b => ¬ b = [])).map
            (fun p => (writeUInt16BE p.length, p))) [],
         P.filter (fun b => ¬ b = []), none) := by
      rw [decTransform_init A mi derive pw salt _ hsl, hframes, hterm]
      simp [List.map_map, Function.comp_def]
    refine ⟨hencerr, ?_, ?_⟩
    · rw [hwire]
      simp only [decFeedAll, hdecT]
      simpa using List.flatten_filter_ne_nil (L := P)
    · rw [hwire]
      simp only [decFeedAll, hdecT]

/-- C1 witness: the amended round trip with the toy cipher, two data
buffers and an empty buffer in between. -/
theorem C1_roundtrip_witness :
    (encFeedAll toyAEAD aes256gcm toyDerive
        (initEnc aes256gcm [9] (List.replicate 32 5))
        [[1, 2, 3], [], [4]]).2.2 = none ∧
    ((decFeedAll toyAEAD aes256gcm toyDerive (initDec aes256gcm [9])
        [(encFeedAll toyAEAD aes256gcm toyDerive
            (initEnc aes256gcm [9] (List.replicate 32 5))
            [[1, 2, 3], [], [4]]).2.1]).2.1).flatten =
      ([[1, 2, 3], [], [4]] : List (List Nat)).flatten ∧
    (decFeedAll toyAEAD aes256gcm toyDerive (initDec aes256gcm [9])
        [(encFeedAll toyAEAD aes256gcm toyDerive
            (initEnc aes256gcm [9] (List.replicate 32 5))
            [[1, 2, 3], [], [4]]).2.1]).2.2 = none :=
  C1_roundtrip_amended toyAEAD aes256gcm (toyAEADok aes256gcm rfl)
    (Or.inr (Or.inl rfl)) toyDerive [9] (List.replicate 32 5)
    [[1, 2, 3], [], [4]] (by decide) (by decide)

/-- C9: feeding any partition of a byte stream to a fresh decryptor,
buffer by buffer, pushes the same plaintexts with the same final error
status as feeding the stream whole; in particular a salt followed by
complete frames split at arbitrary buffer boundaries decrypts to the
same output as the unsplit stream. -/
theorem C9_buffer_boundaries (A : AEADScheme) (mi : MethodInfo)
    (hsup : SupportedMethod mi)
    (derive : List Nat → List Nat → Nat → List Nat)
    (pw : List Nat) (parts : List (List Nat)) :
    (decFeedAll A mi derive (initDec mi pw) parts).2.1 =
      (decTransform A mi derive (initDec mi pw) parts.flatten).2.1 ∧
    (decFeedAll A mi derive (initDec mi pw) parts).2.2 =
      (decTransform A mi derive (initDec mi pw) parts.flatten).2.2 := by
  have hsp : 0 < mi.saltSize := by
    rcases hsup with rfl | rfl | rfl <;> decide
  have hq : decTransform A mi derive (initDec mi pw) [] =
      (initDec mi pw, [], none) := by
    rw [decTransform_first_wait A mi derive (initDec mi pw) [] rfl
      (by simp [initDec]; omega)]
    simp [initDec]
  exact decFeed_flatten A mi derive parts (initDec mi pw) hq

/-- C9 witness: a two-buffer partition of a five-byte stream. -/
theorem C9_buffer_boundaries_witness :
    (decFeedAll toyAEAD aes256gcm toyDerive (initDec aes256gcm [7])
        [[1], [2, 3]]).2.1 =
      (decTransform toyAEAD aes256gcm toyDerive (initDec aes256gcm [7])
        ([[1], [2, 3]] : List (List Nat)).flatten).2.1 ∧
    (decFeedAll toyAEAD aes256gcm toyDerive (initDec aes256gcm [7])
        [[1], [2, 3]]).2.2 =
      (decTransform toyAEAD aes256gcm toyDerive (initDec aes256gcm [7])
        ([[1], [2, 3]] : List (List Nat)).flatten).2.2 :=
  C9_buffer_boundaries toyAEAD aes256gcm (Or.inr (Or.inl rfl)) toyDerive
    [7] [[1], [2, 3]]

/-- An expecting-length state whose next length field fails to open
stops the loop with the length error and an untouched state. -/
theorem processLoop_length_fail (A : AEADScheme) (mi : MethodInfo)
    (st : DecState) (hE : st.expectingLength = true)
    (hblen : 2 + mi.tagSize ≤ st.buffer.length)
    (hopn : A.opn st.key st.nonce (st.buffer.take 2)
      ((st.buffer.drop 2).take mi.tagSize) = none) :
    processLoop A mi st =
      (st, [], some "AEAD authentication failed for length") := by
  rw [processLoop_eq]
  rw [if_neg (by omega), if_pos hE, if_neg (by omega)]
  simp only [hopn]

/-- An expecting-length state whose length field opens but whose payload
fails to open stops the loop with the payload error and no output. -/
theorem processLoop_payload_fail (A : AEADScheme) (mi : MethodInfo)
    (st : DecState) (lb2 : List Nat) (hE : st.expectingLength = true)
    (htag : 0 < mi.tagSize)
    (hblen : 2 + mi.tagSize ≤ st.buffer.length)
    (hopn1 : A.opn st.key st.nonce (st.buffer.take 2)
      ((st.buffer.drop 2).take mi.tagSize) = some lb2)
    (hplen : readUInt16BE lb2 + mi.tagSize ≤
      (st.buffer.drop (2 + mi.tagSize)).length)
    (hopn2 : A.opn st.key (nonceBytes (st.chunkId + 1))
      ((st.buffer.drop (2 + mi.tagSize)).take (readUInt16BE lb2))
      (((st.buffer.drop (2 + mi.tagSize)).drop (readUInt16BE lb2)).take
        mi.tagSize) = none) :
    ∃ st', processLoop A mi st =
      (st', [], some "AEAD authentication failed for payload") := by
  refine ⟨stepLenState mi st lb2, ?_⟩
  rw [processLoop_eq]
  rw [if_neg (by omega), if_pos hE, if_neg (by omega)]
  simp only [hopn1]
  rw [processLoop_eq]
  have hb2 : (stepLenState mi st lb2).buffer =
      st.buffer.drop (2 + mi.tagSize) := rfl
  rw [hb2]
  rw [if_neg (by simp only [List.length_drop] at hplen ⊢; omega)]
  rw [if_neg (by show ¬ ((stepLenState mi st lb2).expectingLength = true)
                 simp [stepLenState])]
  rw [if_neg (by show ¬ (_ < (stepLenState mi st lb2).payloadLength +
                   mi.tagSize)
                 simp only [stepLenState]
                 omega)]
  have hk : (stepLenState mi st lb2).key = st.key := rfl
  have hn : (stepLenState mi st lb2).nonce = nonceBytes (st.chunkId + 1) :=
    rfl
  have hp : (stepLenState mi st lb2).payloadLength = readUInt16BE lb2 := rfl
  rw [hk, hn, hp, hopn2]

/-- A frame run followed by bytes on which the loop errors: the whole
single-buffer write pushes exactly the run's payloads and ends in that
error, leaving the loop's stopping state. -/
theorem decFeed_frames_error (A : AEADScheme) (mi : MethodInfo)
    (hA : AEADok A mi) (htag : 0 < mi.tagSize) (hn12 : mi.nonceSize = 12)
    (derive : List Nat → List Nat → Nat → List Nat)
    (pw salt bad : List Nat) (pairs : List (List Nat × List Nat))
    (st' : DecState) (e : String)
    (hsl : salt.length = mi.saltSize) (hP : PairsOK pairs)
    (hloop : processLoop A mi
      { password := pw, key := derive pw salt mi.keySize,
        nonce := nonceBytes (2 * pairs.length), isFirstChunk := false,
        chunkId := 2 * pairs.length, buffer := bad,
        expectingLength := true,
        payloadLength := lastPayloadLen pairs 0 } = (st', [], some e)) :
    decFeedAll A mi derive (initDec mi pw)
      [salt ++ (mkFramesL A (derive pw salt mi.keySize) 0 pairs ++ bad)] =
      (st', pairs.map Prod.snd, some e) := by
  have hframes := processLoop_frames A mi hA htag
    (derive pw salt mi.keySize) pairs
    (postSalt mi derive pw salt
      (mkFramesL A (derive pw salt mi.keySize) 0 pairs ++ bad)) bad
    hP rfl rfl
    (by show List.replicate mi.nonceSize 0 = nonceBytes 0
        rw [hn12]; exact nonceBytes_zero.symm)
    rfl
  have hEfields : framesEnd mi
      (postSalt mi derive pw salt
        (mkFramesL A (derive pw salt mi.keySize) 0 pairs ++ bad))
      pairs bad =
      { password := pw, key := derive pw salt mi.keySize,
        nonce := nonceBytes (2 * pairs.length), isFirstChunk := false,
        chunkId := 2 * pairs.length, buffer := bad,
        expectingLength := true,
        payloadLength := lastPayloadLen pairs 0 } := by
    simp [framesEnd, postSalt]
  have hdecT : decTransform A mi derive (initDec mi pw)
      (salt ++ (mkFramesL A (derive pw salt mi.keySize) 0 pairs ++ bad)) =
      (st', pairs.map Prod.snd, some e) := by
    rw [decTransform_init A mi derive pw salt _ hsl, hframes, hEfields,
      hloop]
    simp
  simp only [decFeedAll, hdecT]

/-- C8: when the AEAD open of the next length field, or of the payload
after a successful length open, fails on the bytes following a run of
valid frames, the decryptor fed the whole stream as one buffer pushes
exactly the payloads of the preceding frames, emits a fatal error, and
the connectToServer error handler destroys both the client and the
server sockets. -/
theorem C8_auth_failure_fatal (A : AEADScheme) (mi : MethodInfo)
    (hA : AEADok A mi) (hsup : SupportedMethod mi)
    (derive : List Nat → List Nat → Nat → List Nat)
    (pw salt bad : List Nat) (pairs : List (List Nat × List Nat))
    (t : TunnelState)
    (hsl : salt.length = mi.saltSize) (hP : PairsOK pairs)
    (hfail :
      (2 + mi.tagSize ≤ bad.length ∧
        A.opn (derive pw salt mi.keySize) (nonceBytes (2 * pairs.length))
          (bad.take 2) ((bad.drop 2).take mi.tagSize) = none) ∨
      (∃ lb2,
        A.opn (derive pw salt mi.keySize) (nonceBytes (2 * pairs.length))
          (bad.take 2) ((bad.drop 2).take mi.tagSize) = some lb2 ∧
        2 + mi.tagSize ≤ bad.length ∧
        readUInt16BE lb2 + mi.tagSize ≤
          (bad.drop (2 + mi.tagSize)).length ∧
        A.opn (derive pw salt mi.keySize)
          (nonceBytes (2 * pairs.length + 1))
          ((bad.drop (2 + mi.tagSize)).take (readUInt16BE lb2))
          (((bad.drop (2 + mi.tagSize)).drop (readUInt16BE lb2)).take
            mi.tagSize) = none)) :
    (decFeedAll A mi derive (initDec mi pw)
        [salt ++ (mkFramesL A (derive pw salt mi.keySize) 0 pairs ++
          bad)]).2.1 = pairs.map Prod.snd ∧
    ((decFeedAll A mi derive (initDec mi pw)
        [salt ++ (mkFramesL A (derive pw salt mi.keySize) 0 pairs ++
          bad)]).2.2).isSome = true ∧
    (onDecryptorError t).clientDestroyed = true ∧
    (onDecryptorError t).serverDestroyed = true := by
  have hn12 : mi.nonceSize = 12 := by
    rcases hsup with rfl | rfl | rfl <;> rfl
  have htag : 0 < mi.tagSize := by
    rcases hsup with rfl | rfl | rfl <;> decide
  obtain ⟨st', e, hloop⟩ : ∃ st' e, processLoop A mi
      { password := pw, key := derive pw salt mi.keySize,
        nonce := nonceBytes (2 * pairs.length), isFirstChunk := false,
        chunkId := 2 * pairs.length, buffer := bad,
        expectingLength := true,
        payloadLength := lastPayloadLen pairs 0 } = (st', [], some e) := by
    rcases hfail with ⟨hblen, hopn⟩ | ⟨lb2, hopn1, hblen, hplen, hopn2⟩
    · exact ⟨_, _, processLoop_length_fail A mi _ rfl hblen hopn⟩
    · obtain ⟨st', h⟩ := processLoop_payload_fail A mi
        { password := pw, key := derive pw salt mi.keySize,
          nonce := nonceBytes (2 * pairs.length), isFirstChunk := false,
          chunkId := 2 * pairs.length, buffer := bad,
          expectingLength := true,
          payloadLength := lastPayloadLen pairs 0 } lb2 rfl htag
        hblen hopn1 hplen hopn2
      exact ⟨st', _, h⟩
  have hfeed := decFeed_frames_error A mi hA htag hn12 derive pw salt bad
    pairs st' e hsl hP hloop
  rw [hfeed]
  exact ⟨rfl, rfl, rfl, rfl⟩

/-- C8 witness: one valid frame followed by a length field whose tag is
corrupted; the frame's payload is pushed, the stream errors, and the
error handler tears down both sockets. -/
theorem C8_auth_failure_witness :
    (decFeedAll toyAEAD aes256gcm toyDerive (initDec aes256gcm [5])
        [List.replicate 32 4 ++
          (mkFramesL toyAEAD (toyDerive [5] (List.replicate 32 4) 32) 0
            [([0, 2], [7, 8])] ++ ([0, 1] ++ List.replicate 16 1))]).2.1 =
      [([0, 2], [7, 8])].map Prod.snd ∧
    ((decFeedAll toyAEAD aes256gcm toyDerive (initDec aes256gcm [5])
        [List.replicate 32 4 ++
          (mkFramesL toyAEAD (toyDerive [5] (List.replicate 32 4) 32) 0
            [([0, 2], [7, 8])] ++
            ([0, 1] ++ List.replicate 16 1))]).2.2).isSome = true ∧
    (onDecryptorError ⟨false, false⟩).clientDestroyed = true ∧
    (onDecryptorError ⟨false, false⟩).serverDestroyed = true :=
  C8_auth_failure_fatal toyAEAD aes256gcm (toyAEADok aes256gcm rfl)
    (Or.inr (Or.inl rfl)) toyDerive [5] (List.replicate 32 4)
    ([0, 1] ++ List.replicate 16 1) [([0, 2], [7, 8])] ⟨false, false⟩
    (by decide)
    (by intro q hq
        rcases List.mem_singleton.mp hq with rfl
        exact ⟨rfl, rfl⟩)
    (Or.inl ⟨by decide, by decide⟩)

/-- C10: when the AEAD open of a length field fails, the decryptor's
state is exactly the state before the attempt: the carry buffer still
holds all unconsumed bytes starting with that length field, the chunk
counter and nonce keep the values reached after the preceding frames,
and the machine still expects a length field. -/
theorem C10_length_failure_atomic (A : AEADScheme) (mi : MethodInfo)
    (hA : AEADok A mi) (hsup : SupportedMethod mi)
    (derive : List Nat → List Nat → Nat → List Nat)
    (pw salt bad : List Nat) (pairs : List (List Nat × List Nat))
    (hsl : salt.length = mi.saltSize) (hP : PairsOK pairs)
    (hblen : 2 + mi.tagSize ≤ bad.length)
    (hopn : A.opn (derive pw salt mi.keySize)
      (nonceBytes (2 * pairs.length)) (bad.take 2)
      ((bad.drop 2).take mi.tagSize) = none) :
    decFeedAll A mi derive (initDec mi pw)
      [salt ++ (mkFramesL A (derive pw salt mi.keySize) 0 pairs ++ bad)] =
      ({ password := pw, key := derive pw salt mi.keySize,
         nonce := nonceBytes (2 * pairs.length), isFirstChunk := false,
         chunkId := 2 * pairs.length, buffer := bad,
         expectingLength := true,
         payloadLength := lastPayloadLen pairs 0 },
       pairs.map Prod.snd,
       some "AEAD authentication failed for length") := by
  have hn12 : mi.nonceSize = 12 := by
    rcases hsup with rfl | rfl | rfl <;> rfl
  have htag : 0 < mi.tagSize := by
    rcases hsup with rfl | rfl | rfl <;> decide
  exact decFeed_frames_error A mi hA htag hn12 derive pw salt bad pairs _ _
    hsl hP (processLoop_length_fail A mi _ rfl hblen hopn)

/-- C10 witness: one valid frame followed by a corrupted length field;
the final state keeps the bad bytes buffered, counter two, nonce at the
encoding of two, expecting a length field. -/
theorem C10_length_failure_witness :
    decFeedAll toyAEAD aes256gcm toyDerive (initDec aes256gcm [6])
      [List.replicate 32 3 ++
        (mkFramesL toyAEAD (toyDerive [6] (List.replicate 32 3) 32) 0
          [([0, 1], [9])] ++ ([0, 5] ++ List.replicate 16 2))] =
      ({ password := [6], key := toyDerive [6] (List.replicate 32 3) 32,
         nonce := nonceBytes (2 * ([([0, 1], [9])] :
           List (List Nat × List Nat)).length),
         isFirstChunk := false,
         chunkId := 2 * ([([0, 1], [9])] :
           List (List Nat × List Nat)).length,
         buffer := [0, 5] ++ List.replicate 16 2,
         expectingLength := true,
         payloadLength := lastPayloadLen [([0, 1], [9])] 0 },
       [([0, 1], [9])].map Prod.snd,
       some "AEAD authentication failed for length") :=
  C10_length_failure_atomic toyAEAD aes256gcm (toyAEADok aes256gcm rfl)
    (Or.inr (Or.inl rfl)) toyDerive [6] (List.replicate 32 3)
    ([0, 5] ++ List.replicate 16 2) [([0, 1], [9])]
    (by decide)
    (by intro q hq
        rcases List.mem_singleton.mp hq with rfl
        exact ⟨rfl, rfl⟩)
    (by decide) (by decide)

end SSLocal
